import Mathlib

/-
A shallow embedding of the PaddlePaddle NaiveExecutor core
(paddle/fluid/framework/naive_executor.cc) together with the action-name
dispatch of paddle/fluid/pir/serialize_deserialize/src/patch_util.cc.

Scopes live in a heap addressed by natural numbers (scope ids play the role
of Scope pointers, with none standing for a null pointer); dense tensors
live in a second heap addressed by natural numbers (tensor ids play the
role of phi DenseTensor pointers).  Walking a parent chain takes an
explicit fuel bound, so that a cyclic chain, on which the C++ loop would
not terminate, surfaces as a none result.  Collaborator code that is not
part of the analysed sources (Scope, Variable, InitializeVariable,
DenseTensor.ShareBufferWith, OpRegistry) is modelled from the
specification, as marked on each such definition.
-/

namespace PaddleExec

/-- Error kinds raised through PADDLE_ENFORCE in the analysed code. -/
inductive PaddleError where
  | invalidArgument (msg : String)
  | notFound (msg : String)
  | preconditionNotMet (msg : String)
deriving DecidableEq, Repr

/-- Whether an error is the not-found kind. -/
def PaddleError.isNotFound : PaddleError → Bool
  | .notFound _ => true
  | _ => false

/-- A dense tensor: a logical size given by its own metadata, and the id of
the underlying shared buffer (the holder). -/
structure TensorData where
  memSize : Nat
  holderId : Nat
deriving DecidableEq, Repr

/-- Content of a variable: uninitialized, a dense tensor (by tensor id), or
a non-dense storage kind with its own storage id. -/
inductive VarContent where
  | uninit
  | dense (tid : Nat)
  | other (kind : Nat) (storage : Nat)
deriving DecidableEq, Repr

/-- Storage object held by a variable content, when any. -/
def VarContent.storageOf : VarContent → Option Nat
  | .uninit => none
  | .dense tid => some tid
  | .other _ s => some s

/-- A variable: its allocation id (the analogue of its address) and its
content. -/
structure Variable where
  allocId : Nat
  content : VarContent
deriving DecidableEq, Repr

/-- One scope: an optional parent scope id and the local name-to-variable
bindings. -/
structure ScopeData where
  parent : Option Nat
  vars : List (String × Variable)
deriving DecidableEq, Repr

/-- The mutable world: the scope heap, the tensor heap and a fresh-id
counter used for new allocations. -/
structure World where
  scopes : Nat → Option ScopeData
  tensors : Nat → TensorData
  nextId : Nat

/-- Declared type kind of a variable in a block. -/
inductive VarTypeKind where
  | denseKind
  | otherKind (k : Nat)
deriving DecidableEq, Repr

/-- A variable descriptor of a program block. -/
structure VarDesc where
  name : String
  persistable : Bool
  type : VarTypeKind
deriving DecidableEq, Repr

/-- The reserved empty variable name (framework::kEmptyVarName). -/
def kEmptyVarName : String := "@EMPTY@"

/-- An operator descriptor: its type string and its output variable names
(OutputVars true). -/
structure OpDesc where
  type : String
  outputs : List String
deriving DecidableEq, Repr

/-- Modelled from the spec: OpRegistry::CreateOp produces a runnable
operator instance carrying its immutable descriptor; the execution
behaviour itself is abstracted by the opEffect parameter of the run
model. -/
def createOp (d : OpDesc) : OpDesc := d

/-- The patch branch taken by the action-name dispatch in
ParseOpPatches (patch_util.cc). -/
inductive PatchBranch where
  | attrPatch
  | outputAttrPatch
  | attrNamePatch
  | inputTodo
  | outputTodo
  | outputTypePatch
  | noMatch
deriving DecidableEq, Repr

/-- C++ boolean conversion of a bare string literal: the literal decays to
a non-null pointer, which converts to true, whatever its characters are. -/
def cppLiteralTruthy (_s : String) : Bool := true

/-- The action-name dispatch of ParseOpPatches, branch by branch in source
order; the third condition is the non-short-circuiting comparison
(action_name == "modify_attr_name" || "modify_output_attr_name"), whose
right operand is a bare string literal. -/
def dispatchActionName (a : String) : PatchBranch :=
  if a == "add_attr" || a == "modify_attr" || a == "delete_attr" then
    .attrPatch
  else if a == "add_output_attr" || a == "modify_output_attr"
      || a == "delete_output_attr" then
    .outputAttrPatch
  else if a == "modify_attr_name" || cppLiteralTruthy "modify_output_attr_name" then
    .attrNamePatch
  else if a == "add_input" || a == "modify_input" || a == "delete_input" then
    .inputTodo
  else if a == "add_output" || a == "modify_output" || a == "delete_output" then
    .outputTodo
  else if a == "modify_output_type" then
    .outputTypePatch
  else
    .noMatch

/-- Association-list lookup, the model of the unordered_map and Scope map
lookups of the source. -/
def lookupA {α β : Type} [DecidableEq α] : List (α × β) → α → Option β
  | [], _ => none
  | p :: rest, a => if p.1 = a then some p.2 else lookupA rest a

/-- Update one scope in the scope heap. -/
def updScope (w : World) (sid : Nat) (sd : ScopeData) : World :=
  { w with scopes := fun i => if i = sid then some sd else w.scopes i }

/-- Local bindings lookup of one scope, without walking parents. -/
def scopeLocalVar (w : World) (sid : Nat) (name : String) : Option Variable :=
  match w.scopes sid with
  | none => none
  | some sd => lookupA sd.vars name

/-- Modelled from the spec: Scope::FindVar is not among the analysed
sources; per the spec a lookup can walk up the ancestor chain.  The fuel
bounds the walk; none on exhausted fuel or an unallocated scope id. -/
def scopeFindVar (w : World) : Nat → Nat → String → Option Variable
  | 0, _, _ => none
  | fuel + 1, sid, name =>
    match w.scopes sid with
    | none => none
    | some sd =>
      match lookupA sd.vars name with
      | some v => some v
      | none =>
        match sd.parent with
        | none => none
        | some p => scopeFindVar w fuel p name

/-- Modelled from the spec: Scope::Var is not among the analysed sources;
per the spec it is create-if-absent.  A created variable receives a fresh
allocation id and uninitialized content. -/
def scopeVar (w : World) (sid : Nat) (name : String) : World :=
  match w.scopes sid with
  | none => w
  | some sd =>
    match lookupA sd.vars name with
    | some _ => w
    | none =>
      { updScope w sid { sd with vars := (name, ⟨w.nextId, .uninit⟩) :: sd.vars } with
          nextId := w.nextId + 1 }

/-- Replace the binding of one name in a local binding list. -/
def assocSet (vars : List (String × Variable)) (name : String) (v : Variable) :
    List (String × Variable) :=
  vars.map (fun p => if p.1 = name then (p.1, v) else p)

/-- Modelled from the spec: InitializeVariable is not among the analysed
sources; per the spec each call installs fresh zero-initialized storage of
the declared kind into the named variable.  A dense kind also allocates a
fresh zero-sized tensor owning its own buffer. -/
def initVariable (w : World) (sid : Nat) (name : String) (ty : VarTypeKind) : World :=
  match w.scopes sid with
  | none => w
  | some sd =>
    match lookupA sd.vars name with
    | none => w
    | some v =>
      match ty with
      | .denseKind =>
        { updScope
            { w with tensors := fun i => if i = w.nextId then ⟨0, w.nextId⟩ else w.tensors i }
            sid { sd with vars := assocSet sd.vars name { v with content := .dense w.nextId } } with
          nextId := w.nextId + 1 }
      | .otherKind k =>
        { updScope w sid
            { sd with vars := assocSet sd.vars name { v with content := .other k w.nextId } } with
          nextId := w.nextId + 1 }

/-- The root-ancestor walk of NaiveExecutor::CreateVariables: follow
parent links while one remains.  Fuel bounds the walk; none models the
nonterminating C++ loop on a cyclic chain or the dereference of an
unallocated scope id. -/
def rootAnc (w : World) : Nat → Nat → Option Nat
  | 0, _ => none
  | fuel + 1, sid =>
    match w.scopes sid with
    | none => none
    | some sd =>
      match sd.parent with
      | none => some sid
      | some p => rootAnc w fuel p

/-- Message of the null-scope precondition in CreateVariables. -/
def nullScopeMsg : String := "The Scope to hold variables is nullptr."

/-- Message of the self-parent precondition in CreateVariables. -/
def childScopeMsg : String := "Input scope should be child scope."

/-- One iteration of the variable loop of NaiveExecutor::CreateVariables:
skip the empty name; on a persistence match, a persistable variable is
created and initialized in the root ancestor only when absent there, a
non-persistable one is created and initialized in the supplied scope
unconditionally. -/
def createVarsStep (persistable : Bool) (sid anc fuel : Nat) (w : World)
    (v : VarDesc) : World :=
  if v.name = kEmptyVarName then w
  else if persistable = v.persistable then
    if persistable then
      match scopeFindVar w fuel anc v.name with
      | some _ => w
      | none => initVariable (scopeVar w anc v.name) anc v.name v.type
    else
      initVariable (scopeVar w sid v.name) sid v.name v.type
  else w

/-- NaiveExecutor::CreateVariables: enforce a non-null scope, enforce that
the scope is not its own parent, walk to the root ancestor, then run the
variable loop.  The outer none models the undefined behaviour of
dereferencing an unallocated scope id or a nonterminating parent walk. -/
def CreateVariables (fuel : Nat) (blockVars : List VarDesc) (persistable : Bool)
    (sid : Option Nat) (w : World) : Option (Except PaddleError World) :=
  match sid with
  | none => some (.error (.invalidArgument nullScopeMsg))
  | some s =>
    match w.scopes s with
    | none => none
    | some sd =>
      if sd.parent = some s then
        some (.error (.invalidArgument childScopeMsg))
      else
        match rootAnc w fuel s with
        | none => none
        | some anc =>
          some (.ok (blockVars.foldl (createVarsStep persistable s anc fuel) w))

/-- NaiveExecutor::CreateOps: iterate the block's operator descriptors in
declaration order, skip the feed and fetch types, and instantiate one
operator per remaining descriptor. -/
def CreateOps : List OpDesc → List OpDesc
  | [] => []
  | d :: rest =>
    if d.type == "feed" || d.type == "fetch" then CreateOps rest
    else createOp d :: CreateOps rest

/-- Logical memory size of a tensor, read from its own metadata. -/
def memSize (w : World) (t : Nat) : Nat := (w.tensors t).memSize

/-- Identity of the buffer a tensor currently shares. -/
def holderOf (w : World) (t : Nat) : Nat := (w.tensors t).holderId

/-- Modelled from the spec: DenseTensor::ShareBufferWith is not among the
analysed sources; per the spec the receiving tensor shares the source
tensor's backing buffer while keeping its own shape metadata, so only its
holder changes. -/
def ShareBufferWith (w : World) (dst src : Nat) : World :=
  { w with
      tensors := fun i =>
        if i = dst then ⟨(w.tensors dst).memSize, (w.tensors src).holderId⟩
        else w.tensors i }

/-- The per-operator reuse cache of the executor: operator index to the
recorded (tensor id, cluster id) pairs. -/
abbrev ReuseCache : Type := List (Nat × List (Nat × Nat))

/-- One entry of the inner re-alias loop of the buffer-update step of Run:
a recorded tensor mapping to the updated cluster id shares the buffer of
the new canonical tensor.  In the source the shared tensor is
cluster_buffer_[it2.second] with it2.second equal to the updated cluster
id, which is the tensor just written there. -/
def aliasStep (cid canon : Nat) (w : World) (e : Nat × Nat) : World :=
  if e.2 = cid then ShareBufferWith w e.1 canon else w

/-- The inner re-alias loop over one operator's recorded entries. -/
def aliasEntries (cid canon : Nat) (entries : List (Nat × Nat)) (w : World) : World :=
  entries.foldl (aliasStep cid canon) w

/-- The outer re-alias loop of the buffer-update step of Run, over the
whole reuse cache: after a replacement, every tensor recorded anywhere for
the updated cluster id is re-aliased to the new canonical tensor. -/
def reAliasCluster (cache : ReuseCache) (cid canon : Nat) (w : World) : World :=
  cache.foldl (fun w pr => aliasEntries cid canon pr.2 w) w

/-- One (tensor, cluster id) step of the buffer-update in Run: dereference
the cluster buffer (none models the null-pointer dereference of an unset
slot), replace it when the tensor's memory size is strictly greater, and
re-alias the whole cluster on a replacement. -/
def updateOneEntry (cache : ReuseCache) (w : World) (cb : List (Option Nat))
    (e : Nat × Nat) : Option (World × List (Option Nat)) :=
  match cb.getD e.2 none with
  | none => none
  | some buf =>
    if memSize w e.1 > memSize w buf then
      some (reAliasCluster cache e.2 e.1 w, cb.set e.2 (some e.1))
    else
      some (w, cb)

/-- All recorded (tensor, cluster id) pairs of one operator, in order. -/
def updateEntries (cache : ReuseCache) (entries : List (Nat × Nat)) (w : World)
    (cb : List (Option Nat)) : Option (World × List (Option Nat)) :=
  match entries with
  | [] => some (w, cb)
  | e :: rest =>
    match updateOneEntry cache w cb e with
    | none => none
    | some (w1, cb1) => updateEntries cache rest w1 cb1

/-- The buffer-update step of Run for the just-executed operator: nothing
happens when the operator has no recorded entries. -/
def updateReuseForOp (cache : ReuseCache) (i : Nat) (w : World)
    (cb : List (Option Nat)) : Option (World × List (Option Nat)) :=
  match lookupA cache i with
  | none => some (w, cb)
  | some entries => updateEntries cache entries w cb

/-- Observable events of one Run call, in order of occurrence. -/
inductive Event where
  | setCalled (i : Nat)
  | inputHook (h i : Nat)
  | setHooks (i : Nat) (outHooks inHooks : List Nat)
  | opRun (i : Nat) (op : OpDesc)
  | outputHook (h i : Nat)
deriving DecidableEq, Repr

/-- The per-operator event block of the Run loop: the executor-driven flag
reset, every input hook in registration order, the hook propagation for
the two composite control-flow types, and the operator execution itself. -/
def preEvents (hin hout : List Nat) (i : Nat) (op : OpDesc) : List Event :=
  Event.setCalled i :: hin.map (fun h => Event.inputHook h i)
    ++ (if op.type == "while" || op.type == "conditional_block"
        then [Event.setHooks i hout hin] else [])
    ++ [Event.opRun i op]

/-- The operator loop of NaiveExecutor::Run over the enumerated operator
list: per operator, reset the executor-driven flag, call the input hooks
in registration order, on the two composite control-flow types propagate
the current hook lists, execute the operator (its effect on the world is
the abstract opEffect), run the buffer-update step, then call the output
hooks in registration order.  none propagates a null-slot dereference of
the buffer update. -/
def runLoop (opEffect : Nat → OpDesc → World → World) (cache : ReuseCache)
    (hin hout : List Nat) :
    List (Nat × OpDesc) → World → List (Option Nat) →
      Option (World × List (Option Nat) × List Event)
  | [], w, cb => some (w, cb, [])
  | (i, op) :: rest, w, cb =>
    let w1 := opEffect i op w
    match updateReuseForOp cache i w1 cb with
    | none => none
    | some (w2, cb2) =>
      match runLoop opEffect cache hin hout rest w2 cb2 with
      | none => none
      | some (w3, cb3, tr) =>
        some (w3, cb3,
          preEvents hin hout i op
            ++ hout.map (fun h => Event.outputHook h i) ++ tr)

/-- The executor state: the scope pointer, the operator list, the two hook
lists in registration order, the reuse cache and the cluster buffers. -/
structure NaiveExec where
  scope : Option Nat
  ops : List OpDesc
  input_hookfuncs : List Nat
  output_hookfuncs : List Nat
  reuse_cache : ReuseCache
  cluster_buffer : List (Option Nat)

/-- NaiveExecutor::Run on the model state. -/
def NaiveExec.run (opEffect : Nat → OpDesc → World → World) (ex : NaiveExec)
    (w : World) : Option (World × List (Option Nat) × List Event) :=
  runLoop opEffect ex.reuse_cache ex.input_hookfuncs ex.output_hookfuncs
    ex.ops.enum w ex.cluster_buffer

/-- NaiveExecutor::RegisterInputHook: append to the input hook list. -/
def NaiveExec.registerInputHook (ex : NaiveExec) (h : Nat) : NaiveExec :=
  { ex with input_hookfuncs := ex.input_hookfuncs ++ [h] }

/-- NaiveExecutor::RegisterOutputHook: append to the output hook list. -/
def NaiveExec.registerOutputHook (ex : NaiveExec) (h : Nat) : NaiveExec :=
  { ex with output_hookfuncs := ex.output_hookfuncs ++ [h] }

/-- The distinct reuse-target names of the reuse table, one cluster per
distinct target.  The source reads them out of an unordered_map in an
unspecified order; the model fixes the first-encountered order. -/
def clusterNames (table : List (String × String)) : List String :=
  table.foldl (fun acc p => if p.2 ∈ acc then acc else acc ++ [p.2]) []

/-- std::vector resize with null as the fill value. -/
def vecResize (v : List (Option Nat)) (n : Nat) : List (Option Nat) :=
  if v.length ≤ n then v ++ List.replicate (n - v.length) none else v.take n

/-- unordered_map emplace into one operator's entry list: inserted only
when the tensor key is not yet present. -/
def emplaceEntry (entries : List (Nat × Nat)) (e : Nat × Nat) : List (Nat × Nat) :=
  if (lookupA entries e.1).isSome then entries else entries ++ [e]

/-- reuse_cache_[op].emplace(tensor, idx), creating the operator's entry
map when the operator key is absent. -/
def cacheEmplace (cache : ReuseCache) (i : Nat) (e : Nat × Nat) : ReuseCache :=
  if (lookupA cache i).isSome then
    cache.map (fun p => if p.1 = i then (p.1, emplaceEntry p.2 e) else p)
  else
    cache ++ [(i, [e])]

/-- The candidate loop body of MakeReusePlan for one output name of one
operator: a name that is a reuse-table key resolves its cluster index,
and when both the variable and the reuse-target variable exist in the
scope and both hold dense tensors, the pair is recorded for the operator
and the cluster buffer is seeded with the target's tensor; otherwise the
candidate is skipped. -/
def planName (fuel : Nat) (table : List (String × String)) (names : List String)
    (sid : Nat) (w : World) (i : Nat) (st : ReuseCache × List (Option Nat))
    (name : String) : ReuseCache × List (Option Nat) :=
  match lookupA table name with
  | none => st
  | some reuseName =>
    let idx := names.indexOf reuseName
    match scopeFindVar w fuel sid name, scopeFindVar w fuel sid reuseName with
    | some v, some rv =>
      match v.content, rv.content with
      | .dense t, .dense rt =>
        (cacheEmplace st.1 i (t, idx), st.2.set idx (some rt))
      | _, _ => st
    | _, _ => st

/-- The operator loop of MakeReusePlan over the enumerated operator
list. -/
def planLoop (fuel : Nat) (table : List (String × String)) (names : List String)
    (sid : Nat) (w : World) :
    List (Nat × OpDesc) → ReuseCache × List (Option Nat) →
      ReuseCache × List (Option Nat)
  | [], st => st
  | (i, op) :: rest, st =>
    planLoop fuel table names sid w rest
      (op.outputs.foldl (planName fuel table names sid w i) st)

/-- NaiveExecutor::MakeReusePlan: group the reuse table by target name,
size the cluster buffer vector to the cluster count, then scan every
operator's output names for reuse candidates.  none models the null
dereference of an uninitialized scope pointer. -/
def MakeReusePlan (fuel : Nat) (table : List (String × String)) (ex : NaiveExec)
    (w : World) : Option NaiveExec :=
  match ex.scope with
  | none => none
  | some sid =>
    let names := clusterNames table
    let st := planLoop fuel table names sid w ex.ops.enum
      (ex.reuse_cache, vecResize ex.cluster_buffer names.length)
    some { ex with reuse_cache := st.1, cluster_buffer := st.2 }

/-- Message of the uninitialized-scope precondition in FindTensor. -/
def needInitScopeMsg : String := "Need to init scope in NaiveExecutor firstly."

/-- Prefix of the not-found message of FindTensor. -/
def noVarPrefix : String := "No variable ["

/-- Suffix of the not-found message of FindTensor. -/
def noVarSuffix : String := "] in current scope."

/-- NaiveExecutor::FindTensor: enforce an initialized scope, look the name
up in the current scope, and return the held dense tensor.  The final
branch models Variable::Get (not among the analysed sources), which per
the spec yields the tensor of a tensor-kind variable. -/
def FindTensor (fuel : Nat) (ex : NaiveExec) (w : World) (name : String) :
    Except PaddleError Nat :=
  match ex.scope with
  | none => .error (.preconditionNotMet needInitScopeMsg)
  | some sid =>
    match scopeFindVar w fuel sid name with
    | none => .error (.notFound (noVarPrefix ++ name ++ noVarSuffix))
    | some v =>
      match v.content with
      | .dense t => .ok t
      | _ => .error (.invalidArgument "Variable is not a DenseTensor.")

/-- Whether a FindTensor outcome is a not-found error. -/
def findOutcomeIsNotFound : Except PaddleError Nat → Bool
  | .error e => e.isNotFound
  | .ok _ => false

/-- The six action names tested before the defective condition. -/
def earlierActionNames : List String :=
  ["add_attr", "modify_attr", "delete_attr",
   "add_output_attr", "modify_output_attr", "delete_output_attr"]

/-- A sample action name matching none of the dispatch comparisons. -/
def strayActionName : String := "some_unknown_action"

/-- Parent link of a scope, observed through the heap (none when the scope
id is unallocated). -/
def parentsOf (w : World) (i : Nat) : Option (Option Nat) :=
  (w.scopes i).map ScopeData.parent

/-- The storage object currently held by the named variable of one scope's
local bindings. -/
def storageAt (w : World) (sid : Nat) (name : String) : Option Nat :=
  match scopeLocalVar w sid name with
  | none => none
  | some u => u.content.storageOf

/-- Every storage object reachable from the scope heap has an id below the
fresh-id counter. -/
def storageBounded (w : World) : Prop :=
  ∀ i sd, w.scopes i = some sd → ∀ p ∈ sd.vars, ∀ t,
    p.2.content.storageOf = some t → t < w.nextId

/-- A (tensor, cluster id) pair recorded somewhere in the reuse cache. -/
def recordedIn (cache : ReuseCache) (t c : Nat) : Prop :=
  ∃ i entries, lookupA cache i = some entries ∧ (t, c) ∈ entries

/-- Every recorded cluster id has a seeded (non-null) cluster buffer
slot. -/
def slotsSeeded (cache : ReuseCache) (cb : List (Option Nat)) : Prop :=
  ∀ t c, recordedIn cache t c → (cb.getD c none).isSome

/-- Projection of an operator-execution event. -/
def runOf : Event → Option (Nat × OpDesc)
  | .opRun i op => some (i, op)
  | _ => none

/-- Decidable check that a recorded (tensor, cluster id) pair of operator
index i arises from a fully valid reuse candidate: an output name of that
operator that is a reuse-table key whose variable and reuse-target
variable both exist in the scope and hold dense tensors. -/
def entryValidB (fuel : Nat) (table : List (String × String)) (names : List String)
    (sid : Nat) (w : World) (ops : List (Nat × OpDesc)) (i t c : Nat) : Bool :=
  ops.any (fun p =>
    p.1 == i && p.2.outputs.any (fun name =>
      match lookupA table name with
      | none => false
      | some reuseName =>
        match scopeFindVar w fuel sid name, scopeFindVar w fuel sid reuseName with
        | some v, some rv =>
          (match v.content, rv.content with
           | .dense t2, .dense _ => t2 == t && (names.indexOf reuseName == c)
           | _, _ => false)
        | _, _ => false))

/-- Invariant carried through the planning loops of MakeReusePlan: the
cluster buffer vector keeps one slot per cluster name, every recorded
cluster id has a seeded slot, and every recorded pair arises from a fully
valid candidate of some operator of opsE. -/
def planInv (fuel : Nat) (table : List (String × String)) (names : List String)
    (sid : Nat) (w : World) (opsE : List (Nat × OpDesc))
    (st : ReuseCache × List (Option Nat)) : Prop :=
  st.2.length = names.length
  ∧ slotsSeeded st.1 st.2
  ∧ ∀ j entries t c, lookupA st.1 j = some entries → (t, c) ∈ entries →
      ∃ op nm rn v rv rt, (j, op) ∈ opsE ∧ nm ∈ op.outputs
        ∧ lookupA table nm = some rn
        ∧ scopeFindVar w fuel sid nm = some v ∧ v.content = .dense t
        ∧ scopeFindVar w fuel sid rn = some rv ∧ rv.content = .dense rt
        ∧ c = names.indexOf rn

/-- Sample variable name used by witnesses. -/
def xName : String := "x"

/-- Second sample variable name used by witnesses. -/
def yName : String := "y"

/-- Sample reuse-target name used by witnesses. -/
def bufName : String := "buf0"

/-- A world holding a single empty root scope with id 0. -/
def demoW : World :=
  ⟨fun i => if i = 0 then some ⟨none, []⟩ else none, fun _ => ⟨0, 0⟩, 0⟩

/-- One persistable dense variable declaration. -/
def demoVarsP : List VarDesc := [⟨xName, true, .denseKind⟩]

/-- One non-persistable dense variable declaration. -/
def demoVarsN : List VarDesc := [⟨xName, false, .denseKind⟩]

/-- World after creating the persistable declaration in demoW. -/
def demoWP : World :=
  match CreateVariables 1 demoVarsP true (some 0) demoW with
  | some (.ok w) => w
  | _ => demoW

/-- World after one non-persistable creation pass over demoW. -/
def demoWN1 : World :=
  match CreateVariables 1 demoVarsN false (some 0) demoW with
  | some (.ok w) => w
  | _ => demoW

/-- World after a second non-persistable creation pass. -/
def demoWN2 : World :=
  match CreateVariables 1 demoVarsN false (some 0) demoWN1 with
  | some (.ok w) => w
  | _ => demoW

/-- A world whose root scope holds x as a dense tensor variable. -/
def demoWx : World :=
  ⟨fun i => if i = 0 then some ⟨none, [(xName, ⟨0, .dense 5⟩)]⟩ else none,
   fun _ => ⟨0, 0⟩, 6⟩

/-- A malformed world whose scope 0 is its own parent. -/
def demoSelfW : World :=
  ⟨fun i => if i = 0 then some ⟨some 0, []⟩ else none, fun _ => ⟨0, 0⟩, 0⟩

/-- An executor whose scope pointer is still null. -/
def exNoScope : NaiveExec := ⟨none, [], [], [], [], []⟩

/-- An executor attached to scope 0 with no operators. -/
def demoExec : NaiveExec := ⟨some 0, [], [], [], [], []⟩

/-- A tensor world for the buffer-update witnesses: tensor t has memory
size 10 times t and owns buffer t. -/
def demoTW : World := ⟨fun _ => none, fun t => ⟨10 * t, t⟩, 0⟩

/-- A reuse cache with two operators recording tensors 1 and 2 in cluster
0. -/
def demoCache : ReuseCache := [(0, [(1, 0)]), (1, [(2, 0)])]

/-- A one-slot cluster buffer seeded with tensor 1. -/
def demoCb : List (Option Nat) := [some 1]

/-- A plain operator descriptor. -/
def opA : OpDesc := ⟨"relu", []⟩

/-- A while operator descriptor. -/
def opW : OpDesc := ⟨"while", []⟩

/-- A block with feed and fetch descriptors around two real operators. -/
def demoDescs : List OpDesc :=
  [⟨"feed", [xName]⟩, opA, opW, ⟨"fetch", [yName]⟩]

/-- An executor over the operators created from demoDescs, with two input
hooks and one output hook. -/
def demoExecRun : NaiveExec :=
  ⟨some 0, CreateOps demoDescs, [1, 2], [3], [], []⟩

/-- An operator effect leaving the world unchanged. -/
def noEffect : Nat → OpDesc → World → World := fun _ _ w => w

/-- World component of the demo run. -/
def demoRunW : World :=
  match NaiveExec.run noEffect demoExecRun demoTW with
  | some (w, _, _) => w
  | none => demoTW

/-- Cluster-buffer component of the demo run. -/
def demoRunCb : List (Option Nat) :=
  match NaiveExec.run noEffect demoExecRun demoTW with
  | some (_, cb, _) => cb
  | none => []

/-- Trace component of the demo run. -/
def demoTrace : List Event :=
  match NaiveExec.run noEffect demoExecRun demoTW with
  | some (_, _, tr) => tr
  | none => []

/-- A reuse table mapping x and y to the same target buf0. -/
def demoTable : List (String × String) := [(xName, bufName), (yName, bufName)]

/-- A world for planning: x and buf0 exist as dense tensor variables, y
does not exist. -/
def demoPlanW : World :=
  ⟨fun i =>
      if i = 0 then some ⟨none, [(xName, ⟨0, .dense 1⟩), (bufName, ⟨1, .dense 2⟩)]⟩
      else none,
   fun t => ⟨10 * t, t⟩, 3⟩

/-- One operator producing x and y. -/
def demoPlanOps : List OpDesc := [⟨"relu", [xName, yName]⟩]

/-- A fresh executor over demoPlanOps attached to scope 0. -/
def demoPlanExec : NaiveExec := ⟨some 0, demoPlanOps, [], [], [], []⟩

/-- The executor produced by planning reuse on demoPlanExec. -/
def demoPlanned : NaiveExec :=
  match MakeReusePlan 1 demoTable demoPlanExec demoPlanW with
  | some e => e
  | none => demoPlanExec

theorem cppLiteralTruthy_eq_true (s : String) : cppLiteralTruthy s = true := rfl

/-- C9: in ParseOpPatches the condition
(action_name == "modify_attr_name" || "modify_output_attr_name") always
evaluates to true, so every action name missing the six earlier-tested
names falls into the modify_attr_name branch. -/
theorem dispatch_action_name_defect (a : String)
    (h : a ∉ earlierActionNames) :
    ((a == "modify_attr_name") || cppLiteralTruthy "modify_output_attr_name") = true
      ∧ dispatchActionName a = .attrNamePatch := by
  refine ⟨by simp [cppLiteralTruthy], ?_⟩
  have h1 : a ≠ "add_attr" := by intro hx; exact h (by simp [earlierActionNames, hx])
  have h2 : a ≠ "modify_attr" := by intro hx; exact h (by simp [earlierActionNames, hx])
  have h3 : a ≠ "delete_attr" := by intro hx; exact h (by simp [earlierActionNames, hx])
  have h4 : a ≠ "add_output_attr" := by
    intro hx; exact h (by simp [earlierActionNames, hx])
  have h5 : a ≠ "modify_output_attr" := by
    intro hx; exact h (by simp [earlierActionNames, hx])
  have h6 : a ≠ "delete_output_attr" := by
    intro hx; exact h (by simp [earlierActionNames, hx])
  simp [dispatchActionName, cppLiteralTruthy, h1, h2, h3, h4, h5, h6]

/-- Witness for C9: the stray action name takes the modify_attr_name
branch. -/
theorem dispatch_action_name_defect_witness :
    ((strayActionName == "modify_attr_name")
        || cppLiteralTruthy "modify_output_attr_name") = true
      ∧ dispatchActionName strayActionName = .attrNamePatch :=
  dispatch_action_name_defect strayActionName (by decide)

theorem lookupA_cons {α β : Type} [DecidableEq α] (p : α × β) (l : List (α × β)) (a : α) :
    lookupA (p :: l) a = if p.1 = a then some p.2 else lookupA l a := rfl

theorem lookupA_append_some {α β : Type} [DecidableEq α] {l1 l2 : List (α × β)} {a : α}
    {b : β} (h : lookupA l1 a = some b) : lookupA (l1 ++ l2) a = some b := by
  induction l1 with
  | nil => simp [lookupA] at h
  | cons p rest ih =>
    rw [lookupA_cons] at h
    rw [List.cons_append, lookupA_cons]
    split at h
    · rename_i hp
      rw [if_pos hp]
      exact h
    · rename_i hp
      rw [if_neg hp]
      exact ih h

theorem lookupA_append_none {α β : Type} [DecidableEq α] {l1 l2 : List (α × β)} {a : α}
    (h : lookupA l1 a = none) : lookupA (l1 ++ l2) a = lookupA l2 a := by
  induction l1 with
  | nil => simp
  | cons p rest ih =>
    rw [lookupA_cons] at h
    split at h
    · simp at h
    · rw [List.cons_append, lookupA_cons]
      rename_i hp
      rw [if_neg hp]
      exact ih h

theorem lookupA_mem {α β : Type} [DecidableEq α] {l : List (α × β)} {a : α} {b : β}
    (h : lookupA l a = some b) : (a, b) ∈ l := by
  induction l with
  | nil => simp [lookupA] at h
  | cons p rest ih =>
    rw [lookupA_cons] at h
    split at h
    · obtain ⟨x, y⟩ := p
      simp_all
    · exact List.mem_cons_of_mem _ (ih h)

theorem assocSet_cons (p : String × Variable) (rest : List (String × Variable))
    (name : String) (v : Variable) :
    assocSet (p :: rest) name v
      = (if p.1 = name then (p.1, v) else p) :: assocSet rest name v := rfl

theorem lookupA_assocSet_self {vars : List (String × Variable)} {name : String}
    {u v : Variable} (h : lookupA vars name = some u) :
    lookupA (assocSet vars name v) name = some v := by
  induction vars with
  | nil => simp [lookupA] at h
  | cons p rest ih =>
    rw [lookupA_cons] at h
    rw [assocSet_cons, lookupA_cons]
    by_cases hp : p.1 = name
    · simp [hp]
    · rw [if_neg hp] at h
      simp only [if_neg hp]
      exact ih h

theorem lookupA_assocSet_ne {vars : List (String × Variable)} {name n2 : String}
    {v : Variable} (h : n2 ≠ name) :
    lookupA (assocSet vars name v) n2 = lookupA vars n2 := by
  induction vars with
  | nil => rfl
  | cons p rest ih =>
    rw [assocSet_cons, lookupA_cons, lookupA_cons]
    by_cases hp : p.1 = name
    · have hne : ¬(p.1 = n2) := fun hx => h (by rw [← hx, hp])
      simp only [if_pos hp]
      show (if p.1 = n2 then some v else lookupA (assocSet rest name v) n2)
        = if p.1 = n2 then some p.2 else lookupA rest n2
      rw [if_neg hne, if_neg hne, ih]
    · simp only [if_neg hp]
      by_cases hq : p.1 = n2
      · rw [if_pos hq, if_pos hq]
      · rw [if_neg hq, if_neg hq, ih]

theorem lookupA_assocSet_none {vars : List (String × Variable)} {name : String}
    {v : Variable} (h : lookupA vars name = none) :
    lookupA (assocSet vars name v) name = none := by
  induction vars with
  | nil => rfl
  | cons p rest ih =>
    rw [lookupA_cons] at h
    split at h
    · simp at h
    · rw [assocSet_cons, lookupA_cons]
      rename_i hp
      simp only [if_neg hp]
      exact ih h

theorem lookupA_assocSet_isSome {vars : List (String × Variable)} {name n2 : String}
    {v : Variable} :
    (lookupA (assocSet vars name v) n2).isSome = (lookupA vars n2).isSome := by
  by_cases h : n2 = name
  · subst h
    cases hv : lookupA vars n2 with
    | none => simp [lookupA_assocSet_none hv]
    | some u => simp [lookupA_assocSet_self hv]
  · simp [lookupA_assocSet_ne h]

theorem getD_set_self {l : List (Option Nat)} {i : Nat} (a : Option Nat)
    (h : i < l.length) : (l.set i a).getD i none = a := by
  simp [List.getD_eq_getElem?_getD, List.getElem?_set_self h]

theorem getD_set_ne {l : List (Option Nat)} {i j : Nat} (a : Option Nat)
    (h : i ≠ j) : (l.set i a).getD j none = l.getD j none := by
  simp [List.getD_eq_getElem?_getD, List.getElem?_set_ne h]

theorem getD_some_lt {l : List (Option Nat)} {i : Nat} {b : Nat}
    (h : l.getD i none = some b) : i < l.length := by
  by_contra hge
  rw [List.getD_eq_getElem?_getD, List.getElem?_eq_none (by omega)] at h
  simp at h

theorem updScope_scopes_self (w : World) (sid : Nat) (sd : ScopeData) :
    (updScope w sid sd).scopes sid = some sd := by
  simp [updScope]

theorem updScope_scopes_ne (w : World) (sd : ScopeData) {i sid : Nat} (h : i ≠ sid) :
    (updScope w sid sd).scopes i = w.scopes i := by
  simp [updScope, h]

theorem scopeLocalVar_eq (w : World) {sid : Nat} {sd : ScopeData}
    (h : w.scopes sid = some sd) (name : String) :
    scopeLocalVar w sid name = lookupA sd.vars name := by
  simp [scopeLocalVar, h]

theorem scopeVar_null {w : World} {s : Nat} (hw : w.scopes s = none) (n : String) :
    scopeVar w s n = w := by
  simp only [scopeVar, hw]

theorem scopeVar_found {w : World} {s : Nat} {sd : ScopeData} {n : String}
    {v : Variable} (hw : w.scopes s = some sd) (hl : lookupA sd.vars n = some v) :
    scopeVar w s n = w := by
  simp only [scopeVar, hw, hl]

theorem scopeVar_new {w : World} {s : Nat} {sd : ScopeData} {n : String}
    (hw : w.scopes s = some sd) (hl : lookupA sd.vars n = none) :
    scopeVar w s n
      = { updScope w s { sd with vars := (n, ⟨w.nextId, .uninit⟩) :: sd.vars } with
            nextId := w.nextId + 1 } := by
  simp only [scopeVar, hw, hl]

/-- Shared shape of the worlds produced by initVariable. -/
def setVarWorld (w : World) (f : Nat → TensorData) (s : Nat) (sd : ScopeData)
    (n : String) (u : Variable) : World :=
  { updScope { w with tensors := f } s { sd with vars := assocSet sd.vars n u } with
      nextId := w.nextId + 1 }

theorem initVariable_null {w : World} {s : Nat} (hw : w.scopes s = none)
    (n : String) (ty : VarTypeKind) : initVariable w s n ty = w := by
  simp only [initVariable, hw]

theorem initVariable_absent {w : World} {s : Nat} {sd : ScopeData} {n : String}
    (hw : w.scopes s = some sd) (hl : lookupA sd.vars n = none) (ty : VarTypeKind) :
    initVariable w s n ty = w := by
  simp only [initVariable, hw, hl]

theorem initVariable_acts {w : World} {s : Nat} {sd : ScopeData} {n : String}
    {v : Variable} (hw : w.scopes s = some sd) (hl : lookupA sd.vars n = some v)
    (ty : VarTypeKind) :
    ∃ f u, initVariable w s n ty = setVarWorld w f s sd n u
      ∧ u.content.storageOf = some w.nextId ∧ u.allocId = v.allocId := by
  cases ty with
  | denseKind =>
    refine ⟨fun i => if i = w.nextId then ⟨0, w.nextId⟩ else w.tensors i,
      { v with content := .dense w.nextId }, ?_, rfl, rfl⟩
    simp only [initVariable, hw, hl, setVarWorld]
  | otherKind k =>
    refine ⟨w.tensors, { v with content := .other k w.nextId }, ?_, rfl, rfl⟩
    simp only [initVariable, hw, hl, setVarWorld]

theorem setVarWorld_scopes_self (w : World) (f : Nat → TensorData) (s : Nat)
    (sd : ScopeData) (n : String) (u : Variable) :
    (setVarWorld w f s sd n u).scopes s = some { sd with vars := assocSet sd.vars n u } := by
  simp [setVarWorld, updScope_scopes_self]

theorem setVarWorld_scopes_ne (w : World) (f : Nat → TensorData) {i s : Nat}
    (sd : ScopeData) (n : String) (u : Variable) (h : i ≠ s) :
    (setVarWorld w f s sd n u).scopes i = w.scopes i := by
  simp [setVarWorld, updScope_scopes_ne _ _ h]

theorem setVarWorld_nextId (w : World) (f : Nat → TensorData) (s : Nat)
    (sd : ScopeData) (n : String) (u : Variable) :
    (setVarWorld w f s sd n u).nextId = w.nextId + 1 := rfl

theorem setVarWorld_parentsOf {w : World} {s : Nat} {sd : ScopeData}
    (hw : w.scopes s = some sd) (f : Nat → TensorData) (n : String) (u : Variable)
    (i : Nat) : parentsOf (setVarWorld w f s sd n u) i = parentsOf w i := by
  by_cases hi : i = s
  · subst hi
    simp [parentsOf, setVarWorld_scopes_self, hw]
  · simp [parentsOf, setVarWorld_scopes_ne _ _ _ _ _ hi]

theorem setVarWorld_localVar_self {w : World} {s : Nat} {sd : ScopeData} {n : String}
    {v : Variable} (hl : lookupA sd.vars n = some v)
    (f : Nat → TensorData) (u : Variable) :
    scopeLocalVar (setVarWorld w f s sd n u) s n = some u := by
  rw [scopeLocalVar_eq _ (setVarWorld_scopes_self w f s sd n u)]
  exact lookupA_assocSet_self hl

theorem setVarWorld_localVar_ne {w : World} {s2 s : Nat} {sd : ScopeData}
    {n2 n : String} (hw : w.scopes s = some sd) (hne : s2 ≠ s ∨ n2 ≠ n)
    (f : Nat → TensorData) (u : Variable) :
    scopeLocalVar (setVarWorld w f s sd n u) s2 n2 = scopeLocalVar w s2 n2 := by
  by_cases hss : s2 = s
  · subst hss
    have hnn : n2 ≠ n := hne.resolve_left (fun hx => hx rfl)
    rw [scopeLocalVar_eq _ (setVarWorld_scopes_self w f s2 sd n u)]
    rw [lookupA_assocSet_ne hnn, scopeLocalVar_eq w hw]
  · simp only [scopeLocalVar]
    rw [setVarWorld_scopes_ne _ _ _ _ _ hss]

theorem consVarWorld_scopes (w : World) (s : Nat) (sd2 : ScopeData) (k : Nat)
    (i : Nat) :
    ({ updScope w s sd2 with nextId := k } : World).scopes i
      = if i = s then some sd2 else w.scopes i := by
  simp [updScope]

theorem parentsOf_isSome (w : World) (i : Nat) :
    (parentsOf w i).isSome = (w.scopes i).isSome := by
  cases h : w.scopes i <;> simp [parentsOf, h]

theorem parentsOf_root {w : World} {a : Nat} (h : parentsOf w a = some none) :
    ∃ sd, w.scopes a = some sd ∧ sd.parent = none := by
  rw [parentsOf] at h
  cases hx : w.scopes a with
  | none => rw [hx] at h; simp at h
  | some sd =>
    rw [hx] at h
    simp at h
    exact ⟨sd, rfl, h⟩

theorem scopeVar_preserve {w : World} {s2 : Nat} {n2 : String} {u : Variable}
    (h : scopeLocalVar w s2 n2 = some u) (s : Nat) (n : String) :
    scopeLocalVar (scopeVar w s n) s2 n2 = some u := by
  cases hw : w.scopes s with
  | none => rw [scopeVar_null hw]; exact h
  | some sd =>
    cases hl : lookupA sd.vars n with
    | some v => rw [scopeVar_found hw hl]; exact h
    | none =>
      rw [scopeVar_new hw hl]
      simp only [scopeLocalVar]
      by_cases hss : s2 = s
      · subst hss
        rw [scopeLocalVar_eq w hw] at h
        have hne : n ≠ n2 := by
          intro hx
          rw [hx, h] at hl
          cases hl
        simp only [updScope_scopes_self, lookupA_cons]
        show (if n = n2 then some (⟨w.nextId, .uninit⟩ : Variable) else lookupA sd.vars n2)
          = some u
        rw [if_neg hne]
        exact h
      · rw [updScope_scopes_ne _ _ hss]
        exact h

theorem scopeVar_present {w : World} {s : Nat} (hs : (w.scopes s).isSome)
    (n : String) : (scopeLocalVar (scopeVar w s n) s n).isSome := by
  cases hw : w.scopes s with
  | none => rw [hw] at hs; cases hs
  | some sd =>
    cases hl : lookupA sd.vars n with
    | some v => rw [scopeVar_found hw hl]; simp [scopeLocalVar_eq w hw, hl]
    | none =>
      rw [scopeVar_new hw hl]
      simp only [scopeLocalVar, updScope_scopes_self, lookupA_cons]
      simp

theorem scopeVar_parentsOf (w : World) (s : Nat) (n : String) (i : Nat) :
    parentsOf (scopeVar w s n) i = parentsOf w i := by
  cases hw : w.scopes s with
  | none => rw [scopeVar_null hw]
  | some sd =>
    cases hl : lookupA sd.vars n with
    | some v => rw [scopeVar_found hw hl]
    | none =>
      rw [scopeVar_new hw hl]
      simp only [parentsOf]
      by_cases hi : i = s
      · subst hi
        rw [updScope_scopes_self, hw]
        rfl
      · rw [updScope_scopes_ne _ _ hi]

theorem scopeVar_nextId_le (w : World) (s : Nat) (n : String) :
    w.nextId ≤ (scopeVar w s n).nextId := by
  cases hw : w.scopes s with
  | none => rw [scopeVar_null hw]
  | some sd =>
    cases hl : lookupA sd.vars n with
    | some v => rw [scopeVar_found hw hl]
    | none => rw [scopeVar_new hw hl]; exact Nat.le_succ _

theorem scopeVar_storageBounded {w : World} (hb : storageBounded w) (s : Nat)
    (n : String) : storageBounded (scopeVar w s n) := by
  cases hw : w.scopes s with
  | none => rw [scopeVar_null hw]; exact hb
  | some sd =>
    cases hl : lookupA sd.vars n with
    | some v => rw [scopeVar_found hw hl]; exact hb
    | none =>
      rw [scopeVar_new hw hl]
      intro i sd2 hss p hp t ht
      show t < w.nextId + 1
      by_cases hi : i = s
      · subst hi
        rw [updScope_scopes_self] at hss
        cases hss
        rcases List.mem_cons.mp hp with hp | hp
        · subst hp
          simp [VarContent.storageOf] at ht
        · exact Nat.lt_succ_of_lt (hb _ sd hw p hp t ht)
      · rw [updScope_scopes_ne _ _ hi] at hss
        exact Nat.lt_succ_of_lt (hb i sd2 hss p hp t ht)

theorem setVarWorld_storageBounded {w : World} (hb : storageBounded w) {s : Nat}
    {sd : ScopeData} (hw : w.scopes s = some sd) {u : Variable}
    (hu : ∀ t, u.content.storageOf = some t → t ≤ w.nextId) (f : Nat → TensorData)
    (n : String) : storageBounded (setVarWorld w f s sd n u) := by
  intro i sd2 hss p hp t ht
  rw [setVarWorld_nextId]
  by_cases hi : i = s
  · subst hi
    rw [setVarWorld_scopes_self] at hss
    cases hss
    simp only [assocSet] at hp
    rcases List.mem_map.mp hp with ⟨q, hq, hqe⟩
    by_cases hq1 : q.1 = n
    · rw [if_pos hq1] at hqe
      rw [← hqe] at ht
      have := hu t ht
      omega
    · rw [if_neg hq1] at hqe
      rw [← hqe] at ht
      exact Nat.lt_succ_of_lt (hb _ sd hw q hq t ht)
  · rw [setVarWorld_scopes_ne _ _ _ _ _ hi] at hss
    exact Nat.lt_succ_of_lt (hb i sd2 hss p hp t ht)

theorem initVariable_preserve {w : World} {s2 s : Nat} {n2 n : String} {u : Variable}
    (hne : s2 ≠ s ∨ n2 ≠ n) (h : scopeLocalVar w s2 n2 = some u) (ty : VarTypeKind) :
    scopeLocalVar (initVariable w s n ty) s2 n2 = some u := by
  cases hw : w.scopes s with
  | none => rw [initVariable_null hw]; exact h
  | some sd =>
    cases hl : lookupA sd.vars n with
    | none => rw [initVariable_absent hw hl]; exact h
    | some v =>
      obtain ⟨f, u2, heq, _, _⟩ := initVariable_acts hw hl ty
      rw [heq, setVarWorld_localVar_ne hw hne]
      exact h

theorem initVariable_keeps_present {w : World} {s2 : Nat} {n2 : String}
    (h : (scopeLocalVar w s2 n2).isSome) (s : Nat) (n : String) (ty : VarTypeKind) :
    (scopeLocalVar (initVariable w s n ty) s2 n2).isSome := by
  cases hw : w.scopes s with
  | none => rw [initVariable_null hw]; exact h
  | some sd =>
    cases hl : lookupA sd.vars n with
    | none => rw [initVariable_absent hw hl]; exact h
    | some v =>
      obtain ⟨f, u2, heq, _, _⟩ := initVariable_acts hw hl ty
      rw [heq]
      by_cases hss : s2 = s
      · subst hss
        by_cases hnn : n2 = n
        · subst hnn
          rw [setVarWorld_localVar_self hl]
          rfl
        · rw [setVarWorld_localVar_ne hw (Or.inr hnn)]
          exact h
      · rw [setVarWorld_localVar_ne hw (Or.inl hss)]
        exact h

theorem initVariable_storage {w : World} {s : Nat} {n : String} {sd : ScopeData}
    {v : Variable} (hw : w.scopes s = some sd) (hl : lookupA sd.vars n = some v)
    (ty : VarTypeKind) :
    storageAt (initVariable w s n ty) s n = some w.nextId := by
  obtain ⟨f, u2, heq, hstor, _⟩ := initVariable_acts hw hl ty
  rw [heq]
  rw [storageAt, setVarWorld_localVar_self hl]
  exact hstor

theorem initVariable_parentsOf (w : World) (s : Nat) (n : String) (ty : VarTypeKind)
    (i : Nat) : parentsOf (initVariable w s n ty) i = parentsOf w i := by
  cases hw : w.scopes s with
  | none => rw [initVariable_null hw]
  | some sd =>
    cases hl : lookupA sd.vars n with
    | none => rw [initVariable_absent hw hl]
    | some v =>
      obtain ⟨f, u2, heq, _, _⟩ := initVariable_acts hw hl ty
      rw [heq, setVarWorld_parentsOf hw]

theorem initVariable_nextId_le (w : World) (s : Nat) (n : String) (ty : VarTypeKind) :
    w.nextId ≤ (initVariable w s n ty).nextId := by
  cases hw : w.scopes s with
  | none => rw [initVariable_null hw]
  | some sd =>
    cases hl : lookupA sd.vars n with
    | none => rw [initVariable_absent hw hl]
    | some v =>
      obtain ⟨f, u2, heq, _, _⟩ := initVariable_acts hw hl ty
      rw [heq, setVarWorld_nextId]
      exact Nat.le_succ _

theorem initVariable_storageBounded {w : World} (hb : storageBounded w) (s : Nat)
    (n : String) (ty : VarTypeKind) : storageBounded (initVariable w s n ty) := by
  cases hw : w.scopes s with
  | none => rw [initVariable_null hw]; exact hb
  | some sd =>
    cases hl : lookupA sd.vars n with
    | none => rw [initVariable_absent hw hl]; exact hb
    | some v =>
      obtain ⟨f, u2, heq, hstor, _⟩ := initVariable_acts hw hl ty
      rw [heq]
      refine setVarWorld_storageBounded hb hw ?_ f n
      intro t ht
      rw [hstor] at ht
      cases ht
      exact le_refl _

theorem rootAnc_congr {w1 w2 : World} (h : ∀ i, parentsOf w2 i = parentsOf w1 i) :
    ∀ f s, rootAnc w2 f s = rootAnc w1 f s := by
  intro f
  induction f with
  | zero => intro s; rfl
  | succ k ih =>
    intro s
    have hs := h s
    cases h1 : w1.scopes s with
    | none =>
      have h2 : w2.scopes s = none := by
        rw [parentsOf, parentsOf, h1] at hs
        cases h2x : w2.scopes s with
        | none => rfl
        | some sd2 => rw [h2x] at hs; simp at hs
      simp only [rootAnc, h1, h2]
    | some sd1 =>
      obtain ⟨sd2, h2, hpar⟩ : ∃ sd2, w2.scopes s = some sd2 ∧ sd2.parent = sd1.parent := by
        rw [parentsOf, parentsOf, h1] at hs
        cases h2x : w2.scopes s with
        | none => rw [h2x] at hs; simp at hs
        | some sd2 =>
          rw [h2x] at hs
          simp at hs
          exact ⟨sd2, rfl, hs⟩
      simp only [rootAnc, h1, h2, hpar]
      cases hp : sd1.parent with
      | none => rfl
      | some p => exact ih p

theorem rootAnc_root {w : World} :
    ∀ {f s a : Nat}, rootAnc w f s = some a → parentsOf w a = some none := by
  intro f
  induction f with
  | zero => intro s a h; cases h
  | succ k ih =>
    intro s a h
    simp only [rootAnc] at h
    cases hw : w.scopes s with
    | none => rw [hw] at h; cases h
    | some sd =>
      rw [hw] at h
      simp only [] at h
      cases hp : sd.parent with
      | none =>
        rw [hp] at h
        cases h
        simp [parentsOf, hw, hp]
      | some p =>
        rw [hp] at h
        exact ih h

theorem rootAnc_succ {w : World} {f s a : Nat} (h : rootAnc w f s = some a) :
    ∃ k, f = k + 1 := by
  cases f with
  | zero => cases h
  | succ k => exact ⟨k, rfl⟩

theorem scopeFindVar_root {w : World} {a : Nat} (h : parentsOf w a = some none)
    (f : Nat) (n : String) :
    scopeFindVar w (f + 1) a n = scopeLocalVar w a n := by
  obtain ⟨sd, hw, hp⟩ := parentsOf_root h
  simp only [scopeFindVar, hw, hp, scopeLocalVar]
  cases hl : lookupA sd.vars n <;> simp [hl]

theorem step_parentsOf (p : Bool) (s anc f : Nat) (w : World) (v : VarDesc)
    (i : Nat) : parentsOf (createVarsStep p s anc f w v) i = parentsOf w i := by
  unfold createVarsStep
  split
  · rfl
  · split
    · split
      · cases hf : scopeFindVar w f anc v.name with
        | some u => simp only [hf]
        | none =>
          simp only [hf]
          rw [initVariable_parentsOf, scopeVar_parentsOf]
      · rw [initVariable_parentsOf, scopeVar_parentsOf]
    · rfl

theorem step_scopes_isSome (p : Bool) (s anc f : Nat) (w : World) (v : VarDesc)
    (i : Nat) :
    ((createVarsStep p s anc f w v).scopes i).isSome = (w.scopes i).isSome := by
  rw [← parentsOf_isSome, ← parentsOf_isSome, step_parentsOf]

theorem step_nextId_le (p : Bool) (s anc f : Nat) (w : World) (v : VarDesc) :
    w.nextId ≤ (createVarsStep p s anc f w v).nextId := by
  unfold createVarsStep
  split
  · exact le_refl _
  · split
    · split
      · cases hf : scopeFindVar w f anc v.name with
        | some u => simp only [hf]; exact le_refl _
        | none =>
          simp only [hf]
          exact le_trans (scopeVar_nextId_le w anc v.name)
            (initVariable_nextId_le _ anc v.name v.type)
      · exact le_trans (scopeVar_nextId_le w s v.name)
          (initVariable_nextId_le _ s v.name v.type)
    · exact le_refl _

theorem step_storageBounded {w : World} (hb : storageBounded w) (p : Bool)
    (s anc f : Nat) (v : VarDesc) :
    storageBounded (createVarsStep p s anc f w v) := by
  unfold createVarsStep
  split
  · exact hb
  · split
    · split
      · cases hf : scopeFindVar w f anc v.name with
        | some u => simp only [hf]; exact hb
        | none =>
          simp only [hf]
          exact initVariable_storageBounded (scopeVar_storageBounded hb anc v.name)
            anc v.name v.type
      · exact initVariable_storageBounded (scopeVar_storageBounded hb s v.name)
          s v.name v.type
    · exact hb

theorem scopeVar_keeps_present {w : World} {s2 : Nat} {n2 : String}
    (h : (scopeLocalVar w s2 n2).isSome) (s : Nat) (n : String) :
    (scopeLocalVar (scopeVar w s n) s2 n2).isSome := by
  obtain ⟨u, hu⟩ := Option.isSome_iff_exists.mp h
  rw [scopeVar_preserve hu s n]
  rfl

theorem step_keeps_present {w : World} {s2 : Nat} {n2 : String}
    (h : (scopeLocalVar w s2 n2).isSome) (p : Bool) (s anc f : Nat) (v : VarDesc) :
    (scopeLocalVar (createVarsStep p s anc f w v) s2 n2).isSome := by
  unfold createVarsStep
  split
  · exact h
  · split
    · split
      · cases hf : scopeFindVar w f anc v.name with
        | some u => simp only [hf]; exact h
        | none =>
          simp only [hf]
          exact initVariable_keeps_present (scopeVar_keeps_present h anc v.name)
            anc v.name v.type
      · exact initVariable_keeps_present (scopeVar_keeps_present h s v.name)
          s v.name v.type
    · exact h

theorem stepP_preserve_root {w : World} {anc : Nat} (hroot : parentsOf w anc = some none)
    {n : String} {u : Variable} (h : scopeLocalVar w anc n = some u) (s k : Nat)
    (v : VarDesc) :
    scopeLocalVar (createVarsStep true s anc (k + 1) w v) anc n = some u := by
  unfold createVarsStep
  split
  · exact h
  · split
    · rw [scopeFindVar_root hroot]
      cases hf : scopeLocalVar w anc v.name with
      | some u2 => simp only [hf]; exact h
      | none =>
        simp only [hf]
        have hne : n ≠ v.name := by
          intro hx
          rw [hx] at h
          rw [h] at hf
          cases hf
        exact initVariable_preserve (Or.inr hne) (scopeVar_preserve h anc v.name)
          v.type
    · exact h

theorem stepP_establish {w : World} {anc : Nat} (hroot : parentsOf w anc = some none)
    (s k : Nat) {v : VarDesc} (hv : v.persistable = true)
    (hn : v.name ≠ kEmptyVarName) :
    (scopeLocalVar (createVarsStep true s anc (k + 1) w v) anc v.name).isSome := by
  have hs : (w.scopes anc).isSome := by
    rw [← parentsOf_isSome, hroot]
    rfl
  unfold createVarsStep
  rw [if_neg hn, hv, if_pos rfl, if_pos rfl]
  rw [scopeFindVar_root hroot]
  cases hf : scopeLocalVar w anc v.name with
  | some u => simp only [hf]; rfl
  | none =>
    simp only [hf]
    exact initVariable_keeps_present (scopeVar_present hs v.name) anc v.name v.type

theorem stepP_identity {w : World} {anc : Nat} (hroot : parentsOf w anc = some none)
    (s k : Nat) {v : VarDesc}
    (hpres : v.persistable = true → v.name ≠ kEmptyVarName →
      (scopeLocalVar w anc v.name).isSome) :
    createVarsStep true s anc (k + 1) w v = w := by
  unfold createVarsStep
  by_cases hn : v.name = kEmptyVarName
  · rw [if_pos hn]
  · rw [if_neg hn]
    cases hv : v.persistable with
    | false => simp
    | true =>
      rw [if_pos rfl, if_pos rfl]
      rw [scopeFindVar_root hroot]
      obtain ⟨u, hu⟩ := Option.isSome_iff_exists.mp (hpres hv hn)
      rw [hu]

theorem fold_parentsOf (p : Bool) (s anc f : Nat) (i : Nat) :
    ∀ (vars : List VarDesc) (w : World),
      parentsOf (vars.foldl (createVarsStep p s anc f) w) i = parentsOf w i := by
  intro vars
  induction vars with
  | nil => intro w; rfl
  | cons v rest ih =>
    intro w
    rw [List.foldl_cons, ih, step_parentsOf]

theorem fold_nextId_le (p : Bool) (s anc f : Nat) :
    ∀ (vars : List VarDesc) (w : World),
      w.nextId ≤ (vars.foldl (createVarsStep p s anc f) w).nextId := by
  intro vars
  induction vars with
  | nil => intro w; exact le_refl _
  | cons v rest ih =>
    intro w
    rw [List.foldl_cons]
    exact le_trans (step_nextId_le p s anc f w v) (ih _)

theorem fold_storageBounded (p : Bool) (s anc f : Nat) :
    ∀ (vars : List VarDesc) (w : World), storageBounded w →
      storageBounded (vars.foldl (createVarsStep p s anc f) w) := by
  intro vars
  induction vars with
  | nil => intro w hb; exact hb
  | cons v rest ih =>
    intro w hb
    rw [List.foldl_cons]
    exact ih _ (step_storageBounded hb p s anc f v)

theorem fold_keeps_present (p : Bool) (s anc f : Nat) {s2 : Nat} {n2 : String} :
    ∀ (vars : List VarDesc) (w : World), (scopeLocalVar w s2 n2).isSome →
      (scopeLocalVar (vars.foldl (createVarsStep p s anc f) w) s2 n2).isSome := by
  intro vars
  induction vars with
  | nil => intro w h; exact h
  | cons v rest ih =>
    intro w h
    rw [List.foldl_cons]
    exact ih _ (step_keeps_present h p s anc f v)

theorem foldP_preserve_root {anc : Nat} (s k : Nat) {n : String} {u : Variable} :
    ∀ (vars : List VarDesc) (w : World), parentsOf w anc = some none →
      scopeLocalVar w anc n = some u →
      scopeLocalVar (vars.foldl (createVarsStep true s anc (k + 1)) w) anc n
        = some u := by
  intro vars
  induction vars with
  | nil => intro w _ h; exact h
  | cons v rest ih =>
    intro w hroot h
    rw [List.foldl_cons]
    refine ih _ ?_ (stepP_preserve_root hroot h s k v)
    rw [step_parentsOf]
    exact hroot

theorem foldP_establish {anc : Nat} (s k : Nat) :
    ∀ (vars : List VarDesc) (w : World), parentsOf w anc = some none →
      ∀ v ∈ vars, v.persistable = true → v.name ≠ kEmptyVarName →
        (scopeLocalVar (vars.foldl (createVarsStep true s anc (k + 1)) w)
          anc v.name).isSome := by
  intro vars
  induction vars with
  | nil => intro w _ v hv; cases hv
  | cons v0 rest ih =>
    intro w hroot v hv hp hn
    rw [List.foldl_cons]
    rcases List.mem_cons.mp hv with hv | hv
    · subst hv
      exact fold_keeps_present true s anc (k + 1) rest _
        (stepP_establish hroot s k hp hn)
    · refine ih _ ?_ v hv hp hn
      rw [step_parentsOf]
      exact hroot

theorem foldP_identity {anc : Nat} (s k : Nat) :
    ∀ (vars : List VarDesc) (w : World), parentsOf w anc = some none →
      (∀ v ∈ vars, v.persistable = true → v.name ≠ kEmptyVarName →
        (scopeLocalVar w anc v.name).isSome) →
      vars.foldl (createVarsStep true s anc (k + 1)) w = w := by
  intro vars
  induction vars with
  | nil => intro w _ _; rfl
  | cons v0 rest ih =>
    intro w hroot hpres
    rw [List.foldl_cons]
    rw [stepP_identity hroot s k (hpres v0 (List.mem_cons_self v0 rest))]
    exact ih w hroot (fun v hv => hpres v (List.mem_cons_of_mem v0 hv))

theorem createVariables_null (fuel : Nat) (vars : List VarDesc) (p : Bool)
    (w : World) :
    CreateVariables fuel vars p none w
      = some (.error (.invalidArgument nullScopeMsg)) := rfl

theorem createVariables_unalloc {w : World} {s : Nat} (hw : w.scopes s = none)
    (fuel : Nat) (vars : List VarDesc) (p : Bool) :
    CreateVariables fuel vars p (some s) w = none := by
  simp only [CreateVariables, hw]

theorem createVariables_selfparent {w : World} {s : Nat} {sd : ScopeData}
    (hw : w.scopes s = some sd) (hp : sd.parent = some s) (fuel : Nat)
    (vars : List VarDesc) (p : Bool) :
    CreateVariables fuel vars p (some s) w
      = some (.error (.invalidArgument childScopeMsg)) := by
  simp only [CreateVariables, hw, if_pos hp]

theorem createVariables_ok {w : World} {s : Nat} {sd : ScopeData} {anc : Nat}
    (hw : w.scopes s = some sd) (hp : ¬sd.parent = some s) {fuel : Nat}
    (hra : rootAnc w fuel s = some anc) (vars : List VarDesc) (p : Bool) :
    CreateVariables fuel vars p (some s) w
      = some (.ok (vars.foldl (createVarsStep p s anc fuel) w)) := by
  simp only [CreateVariables, hw, if_neg hp, hra]

theorem createVariables_cases {fuel : Nat} {vars : List VarDesc} {p : Bool}
    {s : Nat} {w w1 : World}
    (h : CreateVariables fuel vars p (some s) w = some (.ok w1)) :
    ∃ sd anc, w.scopes s = some sd ∧ ¬sd.parent = some s
      ∧ rootAnc w fuel s = some anc
      ∧ w1 = vars.foldl (createVarsStep p s anc fuel) w := by
  simp only [CreateVariables] at h
  cases hw : w.scopes s with
  | none => rw [hw] at h; cases h
  | some sd =>
    rw [hw] at h
    simp only [] at h
    by_cases hp : sd.parent = some s
    · rw [if_pos hp] at h
      simp at h
    · rw [if_neg hp] at h
      cases hra : rootAnc w fuel s with
      | none => rw [hra] at h; simp at h
      | some anc =>
        rw [hra] at h
        simp only [Option.some.injEq, Except.ok.injEq] at h
        exact ⟨sd, anc, rfl, hp, rfl, h.symm⟩

theorem storageAt_eq {w : World} {s : Nat} {n : String} {u : Variable}
    (hu : scopeLocalVar w s n = some u) :
    storageAt w s n = u.content.storageOf := by
  simp only [storageAt, hu]

theorem storageAt_lt_of_bounded {w : World} {s : Nat} {n : String} {t : Nat}
    (h : storageAt w s n = some t) (hb : storageBounded w) : t < w.nextId := by
  rw [storageAt] at h
  cases hu : scopeLocalVar w s n with
  | none => rw [hu] at h; cases h
  | some u =>
    rw [hu] at h
    rw [scopeLocalVar] at hu
    cases hw : w.scopes s with
    | none => rw [hw] at hu; cases hu
    | some sd =>
      rw [hw] at hu
      simp only [] at hu
      exact hb s sd hw (n, u) (lookupA_mem hu) t h

theorem stepN_eq {w : World} (s anc f : Nat) {v : VarDesc}
    (hv : v.persistable = false) (hn : v.name ≠ kEmptyVarName) :
    createVarsStep false s anc f w v
      = initVariable (scopeVar w s v.name) s v.name v.type := by
  unfold createVarsStep
  rw [if_neg hn, hv]
  simp

theorem stepN_skip_persistable {w : World} (s anc f : Nat) {v : VarDesc}
    (hv : v.persistable = true) : createVarsStep false s anc f w v = w := by
  unfold createVarsStep
  rw [hv]
  simp

theorem initScopeVar_fresh {w : World} {s : Nat} (hs : (w.scopes s).isSome)
    (n : String) (ty : VarTypeKind) :
    ∃ t, storageAt (initVariable (scopeVar w s n) s n ty) s n = some t
      ∧ w.nextId ≤ t := by
  have hs2 : ((scopeVar w s n).scopes s).isSome := by
    rw [← parentsOf_isSome, scopeVar_parentsOf, parentsOf_isSome]
    exact hs
  have hpres : (scopeLocalVar (scopeVar w s n) s n).isSome := scopeVar_present hs n
  cases h2 : (scopeVar w s n).scopes s with
  | none => rw [h2] at hs2; cases hs2
  | some sd2 =>
    rw [scopeLocalVar_eq _ h2] at hpres
    obtain ⟨u, hu⟩ := Option.isSome_iff_exists.mp hpres
    exact ⟨(scopeVar w s n).nextId, initVariable_storage h2 hu ty,
      scopeVar_nextId_le w s n⟩

theorem stepN_keepQ {w : World} {s : Nat} {n : String} {B : Nat}
    (hQ : ∃ t, storageAt w s n = some t ∧ B ≤ t) (hB : B ≤ w.nextId)
    (hs : (w.scopes s).isSome) (anc f : Nat) (v : VarDesc) :
    ∃ t, storageAt (createVarsStep false s anc f w v) s n = some t ∧ B ≤ t := by
  by_cases hn : v.name = kEmptyVarName
  · unfold createVarsStep
    rw [if_pos hn]
    exact hQ
  · cases hv : v.persistable with
    | true => rw [stepN_skip_persistable s anc f hv]; exact hQ
    | false =>
      rw [stepN_eq s anc f hv hn]
      by_cases hnn : v.name = n
      · subst hnn
        obtain ⟨t2, h2, hge⟩ := initScopeVar_fresh hs v.name v.type
        exact ⟨t2, h2, le_trans hB hge⟩
      · obtain ⟨t, hst, hBt⟩ := hQ
        rw [storageAt] at hst
        cases hu : scopeLocalVar w s n with
        | none => rw [hu] at hst; cases hst
        | some u =>
          rw [hu] at hst
          have hkeep : scopeLocalVar (initVariable (scopeVar w s v.name) s v.name v.type) s n
              = some u :=
            initVariable_preserve (Or.inr (fun hx => hnn hx.symm))
              (scopeVar_preserve hu s v.name) v.type
          refine ⟨t, ?_, hBt⟩
          rw [storageAt_eq hkeep]
          exact hst

theorem stepN_scopes_isSome {w : World} {s : Nat} (hs : (w.scopes s).isSome)
    (p : Bool) (s0 anc f : Nat) (v : VarDesc) :
    ((createVarsStep p s0 anc f w v).scopes s).isSome := by
  rw [step_scopes_isSome]
  exact hs

theorem foldN_keepQ {s : Nat} {n : String} {B : Nat} (anc f : Nat) :
    ∀ (vars : List VarDesc) (w : World),
      (∃ t, storageAt w s n = some t ∧ B ≤ t) → B ≤ w.nextId →
      (w.scopes s).isSome →
      ∃ t, storageAt (vars.foldl (createVarsStep false s anc f) w) s n = some t
        ∧ B ≤ t := by
  intro vars
  induction vars with
  | nil => intro w hQ _ _; exact hQ
  | cons v rest ih =>
    intro w hQ hB hs
    rw [List.foldl_cons]
    exact ih _ (stepN_keepQ hQ hB hs anc f v)
      (le_trans hB (step_nextId_le false s anc f w v))
      (stepN_scopes_isSome hs false s anc f v)

theorem foldN_fresh {s : Nat} {B : Nat} (anc f : Nat) :
    ∀ (vars : List VarDesc) (w : World), (w.scopes s).isSome → B ≤ w.nextId →
      ∀ v ∈ vars, v.persistable = false → v.name ≠ kEmptyVarName →
        ∃ t, storageAt (vars.foldl (createVarsStep false s anc f) w) s v.name
          = some t ∧ B ≤ t := by
  intro vars
  induction vars with
  | nil => intro w _ _ v hv; cases hv
  | cons v0 rest ih =>
    intro w hs hB v hv hp hn
    rw [List.foldl_cons]
    rcases List.mem_cons.mp hv with hv | hv
    · subst hv
      have hfresh : ∃ t, storageAt (createVarsStep false s anc f w v) s v.name
          = some t ∧ B ≤ t := by
        rw [stepN_eq s anc f hp hn]
        obtain ⟨t2, h2, hge⟩ := initScopeVar_fresh hs v.name v.type
        exact ⟨t2, h2, le_trans hB hge⟩
      exact foldN_keepQ anc f rest _ hfresh
        (le_trans hB (step_nextId_le false s anc f w v))
        (stepN_scopes_isSome hs false s anc f v)
    · exact ih _ (stepN_scopes_isSome hs false s anc f v0)
        (le_trans hB (step_nextId_le false s anc f w v0)) v hv hp hn

/-- C4: CreateVariables with persistable true is idempotent.  Each declared
persistent variable ends up present in the root ancestor scope found by
walking parent links; a variable already present there keeps its identity
and contents; and a second call returns the very same world. -/
theorem createVariables_persistable_idempotent
    (fuel : Nat) (vars : List VarDesc) (s : Nat) (w w1 : World) (anc : Nat)
    (hanc : rootAnc w fuel s = some anc)
    (h1 : CreateVariables fuel vars true (some s) w = some (.ok w1)) :
    CreateVariables fuel vars true (some s) w1 = some (.ok w1)
    ∧ (∀ v ∈ vars, v.persistable = true → v.name ≠ kEmptyVarName →
        (scopeLocalVar w1 anc v.name).isSome)
    ∧ (∀ n u, scopeLocalVar w anc n = some u → scopeLocalVar w1 anc n = some u) := by
  obtain ⟨sd, anc2, hw, hp, hra, hfold⟩ := createVariables_cases h1
  rw [hanc] at hra
  injection hra with hanc2
  subst hanc2
  obtain ⟨k, hk⟩ := rootAnc_succ hanc
  subst hk
  have hroot : parentsOf w anc = some none := rootAnc_root hanc
  subst hfold
  have hpar_pres : ∀ i,
      parentsOf (vars.foldl (createVarsStep true s anc (k + 1)) w) i
        = parentsOf w i :=
    fun i => fold_parentsOf true s anc (k + 1) i vars w
  have hroot1 :
      parentsOf (vars.foldl (createVarsStep true s anc (k + 1)) w) anc
        = some none := by
    rw [hpar_pres]
    exact hroot
  have hpres1 : ∀ v ∈ vars, v.persistable = true → v.name ≠ kEmptyVarName →
      (scopeLocalVar (vars.foldl (createVarsStep true s anc (k + 1)) w)
        anc v.name).isSome :=
    foldP_establish s k vars w hroot
  refine ⟨?_, hpres1, fun n u hu => foldP_preserve_root s k vars w hroot hu⟩
  cases hs1 : (vars.foldl (createVarsStep true s anc (k + 1)) w).scopes s with
  | none =>
    exfalso
    have hx := hpar_pres s
    rw [parentsOf, parentsOf, hs1, hw] at hx
    simp at hx
  | some sd1 =>
    have hp1 : sd1.parent = sd.parent := by
      have hx := hpar_pres s
      rw [parentsOf, parentsOf, hs1, hw] at hx
      simpa using hx
    have hpne : ¬sd1.parent = some s := by
      rw [hp1]
      exact hp
    have hra1 :
        rootAnc (vars.foldl (createVarsStep true s anc (k + 1)) w) (k + 1) s
          = some anc := by
      rw [rootAnc_congr hpar_pres (k + 1) s]
      exact hanc
    rw [createVariables_ok hs1 hpne hra1 vars true]
    rw [foldP_identity s k vars _ hroot1 hpres1]

/-- Witness for C4: creating the persistent variable x twice in a concrete
world keeps the world of the first call unchanged, and x is present in the
root scope. -/
theorem createVariables_persistable_idempotent_witness :
    CreateVariables 1 demoVarsP true (some 0) demoWP = some (.ok demoWP)
      ∧ (scopeLocalVar demoWP 0 xName).isSome = true := by
  have h := createVariables_persistable_idempotent 1 demoVarsP 0 demoW demoWP 0
    rfl rfl
  exact ⟨h.1, h.2.1 ⟨xName, true, .denseKind⟩ (by decide) rfl (by decide)⟩

/-- C5: CreateVariables with persistable false creates every declared
non-persistent variable in the supplied scope unconditionally, and a
second call installs a fresh storage object, so the first call's contents
are not preserved. -/
theorem createVariables_nonpersistable_fresh
    (fuel1 fuel2 : Nat) (vars : List VarDesc) (s : Nat) (w w1 w2 : World)
    (hb : storageBounded w)
    (h1 : CreateVariables fuel1 vars false (some s) w = some (.ok w1))
    (h2 : CreateVariables fuel2 vars false (some s) w1 = some (.ok w2)) :
    ∀ v ∈ vars, v.persistable = false → v.name ≠ kEmptyVarName →
      (storageAt w1 s v.name).isSome
      ∧ (storageAt w2 s v.name).isSome
      ∧ storageAt w1 s v.name ≠ storageAt w2 s v.name := by
  obtain ⟨sd, anc, hw, hp, hra, hfold⟩ := createVariables_cases h1
  obtain ⟨sd1, anc1, hw1, hp1, hra1, hfold1⟩ := createVariables_cases h2
  intro v hv hpers hn
  have hs : (w.scopes s).isSome := by rw [hw]; rfl
  have hb1 : storageBounded w1 := by
    rw [hfold]
    exact fold_storageBounded false s anc fuel1 vars w hb
  have hQ1 : ∃ t, storageAt w1 s v.name = some t ∧ 0 ≤ t := by
    rw [hfold]
    exact foldN_fresh anc fuel1 vars w hs (Nat.zero_le _) v hv hpers hn
  obtain ⟨t1, ht1, _⟩ := hQ1
  have ht1lt : t1 < w1.nextId := storageAt_lt_of_bounded ht1 hb1
  have hs1 : (w1.scopes s).isSome := by rw [hw1]; rfl
  have hQ2 : ∃ t, storageAt w2 s v.name = some t ∧ w1.nextId ≤ t := by
    rw [hfold1]
    exact foldN_fresh anc1 fuel2 vars w1 hs1 (le_refl _) v hv hpers hn
  obtain ⟨t2, ht2, ht2ge⟩ := hQ2
  refine ⟨by rw [ht1]; rfl, by rw [ht2]; rfl, ?_⟩
  rw [ht1, ht2]
  intro hEq
  cases hEq
  omega

/-- Witness for C5: two non-persistent creation passes over a concrete
world give x a storage object each time, and the two storage objects
differ. -/
theorem createVariables_nonpersistable_fresh_witness :
    (storageAt demoWN1 0 xName).isSome = true
    ∧ (storageAt demoWN2 0 xName).isSome = true
    ∧ storageAt demoWN1 0 xName ≠ storageAt demoWN2 0 xName := by
  have hb : storageBounded demoW := by
    intro i sd hsd p hp t ht
    by_cases hi : i = 0
    · subst hi
      rw [show demoW.scopes 0 = some ⟨none, []⟩ from rfl] at hsd
      cases hsd
      cases hp
    · rw [show demoW.scopes i = none from by simp [demoW, hi]] at hsd
      cases hsd
  have h := createVariables_nonpersistable_fresh 1 1 demoVarsN 0 demoW demoWN1
    demoWN2 hb rfl rfl ⟨xName, false, .denseKind⟩ (by decide) rfl (by decide)
  exact h

/-- C7: CreateVariables fails fast with a descriptive invalid-argument
error exactly when the supplied scope is null or is its own parent, and a
scope satisfying neither condition never produces such an error. -/
theorem createVariables_precondition (fuel : Nat) (vars : List VarDesc) (p : Bool)
    (w : World) :
    CreateVariables fuel vars p none w
        = some (.error (.invalidArgument nullScopeMsg))
    ∧ (∀ s sd, w.scopes s = some sd → sd.parent = some s →
        CreateVariables fuel vars p (some s) w
          = some (.error (.invalidArgument childScopeMsg)))
    ∧ (∀ s sd, w.scopes s = some sd → ¬sd.parent = some s →
        ∀ e, ¬CreateVariables fuel vars p (some s) w = some (.error e)) := by
  refine ⟨createVariables_null fuel vars p w,
    fun s sd hw hp => createVariables_selfparent hw hp fuel vars p, ?_⟩
  intro s sd hw hp e hcon
  simp only [CreateVariables, hw, if_neg hp] at hcon
  cases hra : rootAnc w fuel s with
  | none => rw [hra] at hcon; cases hcon
  | some anc => rw [hra] at hcon; simp at hcon

/-- Witness for C7: the null-scope call and the self-parented call fail
with the two invalid-argument errors, and a well-formed call raises
neither. -/
theorem createVariables_precondition_witness :
    CreateVariables 1 demoVarsP true none demoW
        = some (.error (.invalidArgument nullScopeMsg))
    ∧ CreateVariables 1 demoVarsP true (some 0) demoSelfW
        = some (.error (.invalidArgument childScopeMsg))
    ∧ ¬CreateVariables 1 demoVarsP true (some 0) demoW
        = some (.error (.invalidArgument nullScopeMsg)) := by
  have h := createVariables_precondition 1 demoVarsP true demoW
  have h2 := createVariables_precondition 1 demoVarsP true demoSelfW
  exact ⟨h.1, h2.2.1 0 ⟨some 0, []⟩ rfl rfl,
    h.2.2 0 ⟨none, []⟩ rfl (by decide) _⟩

/-- Counterexample for C8 as stated: with an uninitialized scope,
FindTensor fails with a precondition-not-met error, not with a not-found
kind of error. -/
theorem findTensor_uninit_scope_not_notFound :
    FindTensor 1 exNoScope demoW xName
        = .error (.preconditionNotMet needInitScopeMsg)
    ∧ findOutcomeIsNotFound (FindTensor 1 exNoScope demoW xName) = false :=
  ⟨rfl, rfl⟩

/-- C8 (amended): FindTensor returns the dense tensor held by the named
variable of the current scope; it fails with a precondition-violation
error when the scope is uninitialized, and with a not-found error carrying
the requested name when no variable of that name is present. -/
theorem findTensor_error_kinds (fuel : Nat) (ex : NaiveExec) (w : World)
    (name : String) :
    (ex.scope = none →
      FindTensor fuel ex w name = .error (.preconditionNotMet needInitScopeMsg))
    ∧ (∀ sid, ex.scope = some sid → scopeFindVar w fuel sid name = none →
        FindTensor fuel ex w name
          = .error (.notFound (noVarPrefix ++ name ++ noVarSuffix)))
    ∧ (∀ sid v t, ex.scope = some sid → scopeFindVar w fuel sid name = some v →
        v.content = .dense t → FindTensor fuel ex w name = .ok t) := by
  refine ⟨fun h => by simp only [FindTensor, h], ?_, ?_⟩
  · intro sid hsc hf
    simp only [FindTensor, hsc, hf]
  · intro sid v t hsc hf hc
    simp only [FindTensor, hsc, hf, hc]

/-- Witness for C8: in a concrete world, looking up the present dense
variable x returns its tensor, and looking up the absent name y fails with
the not-found message carrying y. -/
theorem findTensor_error_kinds_witness :
    FindTensor 1 demoExec demoWx yName
        = .error (.notFound (noVarPrefix ++ yName ++ noVarSuffix))
    ∧ FindTensor 1 demoExec demoWx xName = .ok 5 := by
  have h1 := (findTensor_error_kinds 1 demoExec demoWx yName).2.1 0 rfl rfl
  have h2 := (findTensor_error_kinds 1 demoExec demoWx xName).2.2 0 ⟨0, .dense 5⟩ 5
    rfl rfl rfl
  exact ⟨h1, h2⟩

theorem share_memSize (w : World) (d sr t : Nat) :
    memSize (ShareBufferWith w d sr) t = memSize w t := by
  simp only [memSize, ShareBufferWith]
  by_cases h : t = d
  · subst h
    rw [if_pos rfl]
  · rw [if_neg h]

theorem share_holder (w : World) (d sr t : Nat) :
    holderOf (ShareBufferWith w d sr) t
      = if t = d then holderOf w sr else holderOf w t := by
  simp only [holderOf, ShareBufferWith]
  by_cases h : t = d
  · subst h
    rw [if_pos rfl, if_pos rfl]
  · rw [if_neg h, if_neg h]

theorem aliasStep_memSize (cid canon : Nat) (w : World) (e : Nat × Nat) (t : Nat) :
    memSize (aliasStep cid canon w e) t = memSize w t := by
  unfold aliasStep
  split
  · rw [share_memSize]
  · rfl

theorem aliasStep_holder_canon (cid canon : Nat) (w : World) (e : Nat × Nat) :
    holderOf (aliasStep cid canon w e) canon = holderOf w canon := by
  unfold aliasStep
  split
  · rw [share_holder]
    by_cases h : canon = e.1 <;> simp [h]
  · rfl

theorem aliasStep_holder (cid canon : Nat) (w : World) (e : Nat × Nat) (t : Nat) :
    holderOf (aliasStep cid canon w e) t
      = if e.1 == t && e.2 == cid then holderOf w canon else holderOf w t := by
  unfold aliasStep
  by_cases h2 : e.2 = cid
  · rw [if_pos h2, share_holder]
    by_cases h1 : t = e.1
    · simp [h1, h2]
    · have : ¬(e.1 == t) = true := by
        simp only [beq_iff_eq]
        exact fun hx => h1 hx.symm
      simp [h1, this]
  · rw [if_neg h2]
    have : ¬(e.2 == cid) = true := by
      simp only [beq_iff_eq]
      exact h2
    simp [this]

theorem aliasEntries_memSize (cid canon t : Nat) :
    ∀ (entries : List (Nat × Nat)) (w : World),
      memSize (aliasEntries cid canon entries w) t = memSize w t := by
  intro entries
  induction entries with
  | nil => intro w; rfl
  | cons e rest ih =>
    intro w
    simp only [aliasEntries, List.foldl_cons]
    rw [show List.foldl (aliasStep cid canon) (aliasStep cid canon w e) rest
        = aliasEntries cid canon rest (aliasStep cid canon w e) from rfl]
    rw [ih, aliasStep_memSize]

theorem aliasEntries_holder (cid canon t : Nat) :
    ∀ (entries : List (Nat × Nat)) (w : World),
      holderOf (aliasEntries cid canon entries w) t
        = if entries.any (fun e => e.1 == t && e.2 == cid) then holderOf w canon
          else holderOf w t := by
  intro entries
  induction entries with
  | nil => intro w; simp [aliasEntries]
  | cons e rest ih =>
    intro w
    simp only [aliasEntries, List.foldl_cons]
    rw [show List.foldl (aliasStep cid canon) (aliasStep cid canon w e) rest
        = aliasEntries cid canon rest (aliasStep cid canon w e) from rfl]
    rw [ih, List.any_cons]
    have hcanon := aliasStep_holder_canon cid canon w e
    have ht := aliasStep_holder cid canon w e t
    cases hfe : (e.1 == t && e.2 == cid) with
    | true =>
      cases hrest : rest.any (fun e => e.1 == t && e.2 == cid) with
      | true => simp [hfe, hrest, hcanon]
      | false =>
        rw [hfe] at ht
        simp [hfe, hrest, hcanon, ht]
    | false =>
      cases hrest : rest.any (fun e => e.1 == t && e.2 == cid) with
      | true => simp [hfe, hrest, hcanon]
      | false =>
        rw [hfe] at ht
        simp [hfe, hrest, ht]

theorem reAlias_memSize (cid canon t : Nat) :
    ∀ (cache : ReuseCache) (w : World),
      memSize (reAliasCluster cache cid canon w) t = memSize w t := by
  intro cache
  induction cache with
  | nil => intro w; rfl
  | cons pr rest ih =>
    intro w
    simp only [reAliasCluster, List.foldl_cons]
    rw [show List.foldl (fun w pr => aliasEntries cid canon pr.2 w)
          (aliasEntries cid canon pr.2 w) rest
        = reAliasCluster rest cid canon (aliasEntries cid canon pr.2 w) from rfl]
    rw [ih, aliasEntries_memSize]

theorem reAlias_holder (cid canon t : Nat) :
    ∀ (cache : ReuseCache) (w : World),
      holderOf (reAliasCluster cache cid canon w) t
        = if cache.any (fun pr => pr.2.any (fun e => e.1 == t && e.2 == cid)) then
            holderOf w canon
          else holderOf w t := by
  intro cache
  induction cache with
  | nil => intro w; simp [reAliasCluster]
  | cons pr rest ih =>
    intro w
    simp only [reAliasCluster, List.foldl_cons]
    rw [show List.foldl (fun w pr => aliasEntries cid canon pr.2 w)
          (aliasEntries cid canon pr.2 w) rest
        = reAliasCluster rest cid canon (aliasEntries cid canon pr.2 w) from rfl]
    rw [ih, List.any_cons]
    have hcanon : holderOf (aliasEntries cid canon pr.2 w) canon = holderOf w canon := by
      rw [aliasEntries_holder]
      by_cases h : pr.2.any (fun e => e.1 == canon && e.2 == cid) = true <;> simp [h]
    have ht := aliasEntries_holder cid canon t pr.2 w
    cases hfe : pr.2.any (fun e => e.1 == t && e.2 == cid) with
    | true =>
      cases hrest : rest.any (fun pr => pr.2.any (fun e => e.1 == t && e.2 == cid)) with
      | true => simp [hfe, hrest, hcanon]
      | false =>
        rw [hfe] at ht
        simp [hfe, hrest, hcanon, ht]
    | false =>
      cases hrest : rest.any (fun pr => pr.2.any (fun e => e.1 == t && e.2 == cid)) with
      | true => simp [hfe, hrest, hcanon]
      | false =>
        rw [hfe] at ht
        simp [hfe, hrest, ht]

theorem updateOneEntry_replace {cache : ReuseCache} {w : World}
    {cb : List (Option Nat)} {t c buf : Nat} (h : cb.getD c none = some buf)
    (hgt : memSize w t > memSize w buf) :
    updateOneEntry cache w cb (t, c)
      = some (reAliasCluster cache c t w, cb.set c (some t)) := by
  simp only [updateOneEntry, h, if_pos hgt]

theorem updateOneEntry_keep {cache : ReuseCache} {w : World}
    {cb : List (Option Nat)} {t c buf : Nat} (h : cb.getD c none = some buf)
    (hle : memSize w t ≤ memSize w buf) :
    updateOneEntry cache w cb (t, c) = some (w, cb) := by
  simp only [updateOneEntry, h]
  rw [if_neg (not_lt.mpr hle)]

theorem updateEntries_mono {cache : ReuseCache} :
    ∀ (entries : List (Nat × Nat)) (w : World) (cb : List (Option Nat))
      (w2 : World) (cb2 : List (Option Nat)),
      updateEntries cache entries w cb = some (w2, cb2) →
      ∀ cid b, cb.getD cid none = some b →
        ∃ b2, cb2.getD cid none = some b2 ∧ memSize w b ≤ memSize w2 b2 := by
  intro entries
  induction entries with
  | nil =>
    intro w cb w2 cb2 h cid b hb
    simp only [updateEntries, Option.some.injEq, Prod.mk.injEq] at h
    obtain ⟨hw, hcb⟩ := h
    subst hw
    subst hcb
    exact ⟨b, hb, le_refl _⟩
  | cons e rest ih =>
    intro w cb w2 cb2 h cid b hb
    simp only [updateEntries] at h
    cases h1 : updateOneEntry cache w cb e with
    | none => rw [h1] at h; cases h
    | some pr =>
      obtain ⟨w1, cb1⟩ := pr
      rw [h1] at h
      have h : updateEntries cache rest w1 cb1 = some (w2, cb2) := h
      simp only [updateOneEntry] at h1
      cases hslot : cb.getD e.2 none with
      | none => rw [hslot] at h1; cases h1
      | some b0 =>
        rw [hslot] at h1
        have h1 : (if memSize w e.1 > memSize w b0 then
              some (reAliasCluster cache e.2 e.1 w, cb.set e.2 (some e.1))
            else some (w, cb)) = some (w1, cb1) := h1
        by_cases hgt : memSize w e.1 > memSize w b0
        · rw [if_pos hgt] at h1
          simp only [Option.some.injEq, Prod.mk.injEq] at h1
          obtain ⟨hw1, hcb1⟩ := h1
          by_cases hcid : cid = e.2
          · rw [hcid] at hb ⊢
            have hbb : b = b0 := by
              rw [hb] at hslot
              cases hslot
              rfl
            subst hbb
            have hlt : e.2 < cb.length := getD_some_lt hslot
            have hslot1 : cb1.getD e.2 none = some e.1 := by
              rw [← hcb1, getD_set_self _ hlt]
            obtain ⟨b2, hb2, hle2⟩ := ih w1 cb1 w2 cb2 h e.2 e.1 hslot1
            refine ⟨b2, hb2, ?_⟩
            have hms : memSize w1 e.1 = memSize w e.1 := by
              rw [← hw1, reAlias_memSize]
            rw [hms] at hle2
            exact le_trans (le_of_lt hgt) hle2
          · have hslot1 : cb1.getD cid none = some b := by
              rw [← hcb1, getD_set_ne _ (fun hx => hcid hx.symm)]
              exact hb
            obtain ⟨b2, hb2, hle2⟩ := ih w1 cb1 w2 cb2 h cid b hslot1
            refine ⟨b2, hb2, ?_⟩
            have hms : memSize w1 b = memSize w b := by
              rw [← hw1, reAlias_memSize]
            rw [hms] at hle2
            exact hle2
        · rw [if_neg hgt] at h1
          simp only [Option.some.injEq, Prod.mk.injEq] at h1
          obtain ⟨hw1, hcb1⟩ := h1
          subst hw1
          subst hcb1
          exact ih w cb w2 cb2 h cid b hb

/-- C1: in the buffer-update step of Run, a recorded (tensor, cluster id)
pair replaces the cluster's canonical buffer exactly when the tensor's
memory size is strictly greater; on a replacement every tensor recorded
anywhere for that cluster id is re-aliased to share the new canonical
tensor's buffer; a smaller-or-equal tensor changes nothing; and across the
whole step every cluster's canonical buffer size is monotonically
non-decreasing. -/
theorem run_buffer_update_spec (cache : ReuseCache) (w : World)
    (cb : List (Option Nat)) (t c buf : Nat) (h : cb.getD c none = some buf) :
    (memSize w t > memSize w buf →
      updateOneEntry cache w cb (t, c)
          = some (reAliasCluster cache c t w, cb.set c (some t))
        ∧ ∀ i entries t2 c2, (i, entries) ∈ cache → (t2, c2) ∈ entries →
            c2 = c → holderOf (reAliasCluster cache c t w) t2 = holderOf w t)
    ∧ (memSize w t ≤ memSize w buf →
        updateOneEntry cache w cb (t, c) = some (w, cb))
    ∧ (∀ i w2 cb2, updateReuseForOp cache i w cb = some (w2, cb2) →
        ∀ cid b, cb.getD cid none = some b →
          ∃ b2, cb2.getD cid none = some b2 ∧ memSize w b ≤ memSize w2 b2) := by
  refine ⟨?_, fun hle => updateOneEntry_keep h hle, ?_⟩
  · intro hgt
    refine ⟨updateOneEntry_replace h hgt, ?_⟩
    intro i entries t2 c2 hmem hmem2 hc2
    subst hc2
    rw [reAlias_holder]
    have hany : cache.any (fun pr => pr.2.any (fun e => e.1 == t2 && e.2 == c2))
        = true := by
      rw [List.any_eq_true]
      refine ⟨(i, entries), hmem, ?_⟩
      rw [List.any_eq_true]
      exact ⟨(t2, c2), hmem2, by simp⟩
    rw [if_pos hany]
  · intro i w2 cb2 hupd cid b hb
    simp only [updateReuseForOp] at hupd
    cases hl : lookupA cache i with
    | none =>
      rw [hl] at hupd
      simp only [Option.some.injEq, Prod.mk.injEq] at hupd
      obtain ⟨hw2, hcb2⟩ := hupd
      subst hw2
      subst hcb2
      exact ⟨b, hb, le_refl _⟩
    | some entries =>
      rw [hl] at hupd
      exact updateEntries_mono entries w cb w2 cb2 hupd cid b hb

/-- Witness for C1: with tensor sizes 10 and 20 in cluster 0, tensor 2
replaces the canonical buffer 1 and tensor 1 is re-aliased to tensor 2's
buffer, while the zero-sized tensor 0 changes nothing. -/
theorem run_buffer_update_spec_witness :
    updateOneEntry demoCache demoTW demoCb (2, 0)
        = some (reAliasCluster demoCache 0 2 demoTW, demoCb.set 0 (some 2))
    ∧ holderOf (reAliasCluster demoCache 0 2 demoTW) 1 = holderOf demoTW 2
    ∧ updateOneEntry demoCache demoTW demoCb (0, 0) = some (demoTW, demoCb) := by
  have h := run_buffer_update_spec demoCache demoTW demoCb 2 0 1 rfl
  have h2 := run_buffer_update_spec demoCache demoTW demoCb 0 0 1 rfl
  exact ⟨(h.1 (by decide)).1,
    (h.1 (by decide)).2 0 [(1, 0)] 1 0 (by decide) (by decide) rfl,
    h2.2.1 (by decide)⟩

theorem runLoop_trace (opE : Nat → OpDesc → World → World) (cache : ReuseCache)
    (hin hout : List Nat) :
    ∀ (l : List (Nat × OpDesc)) (w : World) (cb : List (Option Nat))
      (w3 : World) (cb3 : List (Option Nat)) (tr : List Event),
      runLoop opE cache hin hout l w cb = some (w3, cb3, tr) →
      tr = l.flatMap (fun p => preEvents hin hout p.1 p.2
        ++ hout.map (fun h => Event.outputHook h p.1)) := by
  intro l
  induction l with
  | nil =>
    intro w cb w3 cb3 tr h
    simp only [runLoop, Option.some.injEq, Prod.mk.injEq] at h
    rw [← h.2.2]
    rfl
  | cons p rest ih =>
    obtain ⟨i, op⟩ := p
    intro w cb w3 cb3 tr h
    simp only [runLoop] at h
    cases hu : updateReuseForOp cache i (opE i op w) cb with
    | none => rw [hu] at h; cases h
    | some pr =>
      obtain ⟨w2, cb2⟩ := pr
      rw [hu] at h
      have h : (match runLoop opE cache hin hout rest w2 cb2 with
          | none => none
          | some (w3, cb3, tr) =>
            some (w3, cb3, preEvents hin hout i op
              ++ hout.map (fun hk => Event.outputHook hk i) ++ tr))
          = some (w3, cb3, tr) := h
      cases hr : runLoop opE cache hin hout rest w2 cb2 with
      | none => rw [hr] at h; cases h
      | some tri =>
        obtain ⟨w4, cb4, tr4⟩ := tri
        rw [hr] at h
        simp only [Option.some.injEq, Prod.mk.injEq] at h
        rw [← h.2.2, ih w2 cb2 w4 cb4 tr4 hr, List.flatMap_cons]

theorem filterMap_none_of {A B : Type} (f : A → Option B)
    (h : ∀ a, f a = none) : ∀ l : List A, l.filterMap f = [] := by
  intro l
  induction l with
  | nil => rfl
  | cons a rest ih => rw [List.filterMap_cons, h a, ih]

theorem block_runOf (hin hout : List Nat) (i : Nat) (op : OpDesc) :
    ((preEvents hin hout i op
        ++ hout.map (fun hk => Event.outputHook hk i)).filterMap runOf)
      = [(i, op)] := by
  have hins : List.filterMap (runOf ∘ fun hk => Event.inputHook hk i) hin = [] :=
    filterMap_none_of _ (fun a => rfl) hin
  have houts : List.filterMap (runOf ∘ fun hk => Event.outputHook hk i) hout = [] :=
    filterMap_none_of _ (fun a => rfl) hout
  by_cases hc : (op.type == "while" || op.type == "conditional_block") = true
  · simp only [preEvents, hc, if_true, List.filterMap_append, List.cons_append,
      List.filterMap_cons, runOf, List.filterMap_map]
    rw [hins, houts]
    rfl
  · simp only [preEvents, hc, if_false, List.filterMap_append, List.cons_append,
      List.filterMap_cons, runOf, List.filterMap_map]
    rw [hins, houts]
    rfl

theorem runLoop_opRuns (opE : Nat → OpDesc → World → World) (cache : ReuseCache)
    (hin hout : List Nat) (l : List (Nat × OpDesc)) (w : World)
    (cb : List (Option Nat)) (w3 : World) (cb3 : List (Option Nat))
    (tr : List Event) (h : runLoop opE cache hin hout l w cb = some (w3, cb3, tr)) :
    tr.filterMap runOf = l := by
  rw [runLoop_trace opE cache hin hout l w cb w3 cb3 tr h]
  clear h
  induction l with
  | nil => rfl
  | cons p rest ih =>
    rw [List.flatMap_cons, List.filterMap_append, block_runOf, ih]
    rfl


/-- C2: CreateOps keeps exactly the descriptors whose type is neither feed
nor fetch, in declaration order; no operator in the list is feed or fetch
typed; and a completed Run executes exactly the created operators, once
each, in that order. -/
theorem create_ops_excludes_feed_fetch (descs : List OpDesc) :
    CreateOps descs = descs.filter (fun d => !(d.type == "feed" || d.type == "fetch"))
    ∧ (∀ op ∈ CreateOps descs, op.type ≠ "feed" ∧ op.type ≠ "fetch")
    ∧ (∀ opE ex w w3 cb3 tr, ex.ops = CreateOps descs →
        NaiveExec.run opE ex w = some (w3, cb3, tr) →
        tr.filterMap runOf = (CreateOps descs).enum) := by
  have hfilter : CreateOps descs
      = descs.filter (fun d => !(d.type == "feed" || d.type == "fetch")) := by
    induction descs with
    | nil => rfl
    | cons d rest ih =>
      rw [List.filter_cons]
      cases hd : (d.type == "feed" || d.type == "fetch") with
      | true => simp [CreateOps, hd, createOp, ih]
      | false => simp [CreateOps, hd, createOp, ih]
  refine ⟨hfilter, ?_, ?_⟩
  · intro op hop
    rw [hfilter] at hop
    have hpred := List.of_mem_filter hop
    simp only [Bool.not_eq_true', Bool.or_eq_false_iff, beq_eq_false_iff_ne] at hpred
    exact hpred
  · intro opE ex w w3 cb3 tr hops h
    rw [NaiveExec.run, hops] at h
    exact runLoop_opRuns opE ex.reuse_cache ex.input_hookfuncs ex.output_hookfuncs
      (CreateOps descs).enum w ex.cluster_buffer w3 cb3 tr h

/-- Witness for C2: the demo block loses its feed and fetch descriptors,
the surviving operators are not feed or fetch typed, and the demo run
executes exactly the surviving operators in order. -/
theorem create_ops_excludes_feed_fetch_witness :
    CreateOps demoDescs
        = demoDescs.filter (fun d => !(d.type == "feed" || d.type == "fetch"))
    ∧ (opA.type ≠ "feed" ∧ opA.type ≠ "fetch")
    ∧ demoTrace.filterMap runOf = (CreateOps demoDescs).enum := by
  have h := create_ops_excludes_feed_fetch demoDescs
  exact ⟨h.1, h.2.1 opA (by decide), h.2.2 noEffect demoExecRun demoTW demoRunW
    demoRunCb demoTrace rfl rfl⟩

/-- C3: in a completed Run, every operator's observed event block is
exactly: the executor-driven flag reset, all input hooks in registration
order, then, exactly when the operator type is while or conditional_block,
the propagation of the current hook lists, then the operator execution,
then all output hooks in registration order. -/
theorem run_hook_order (opE : Nat → OpDesc → World → World) (ex : NaiveExec)
    (w : World) (w3 : World) (cb3 : List (Option Nat)) (tr : List Event)
    (h : NaiveExec.run opE ex w = some (w3, cb3, tr)) :
    tr = ex.ops.enum.flatMap (fun p =>
      (Event.setCalled p.1
          :: ex.input_hookfuncs.map (fun hk => Event.inputHook hk p.1)
          ++ (if p.2.type == "while" || p.2.type == "conditional_block"
              then [Event.setHooks p.1 ex.output_hookfuncs ex.input_hookfuncs]
              else [])
          ++ [Event.opRun p.1 p.2])
        ++ ex.output_hookfuncs.map (fun hk => Event.outputHook hk p.1)) := by
  exact runLoop_trace opE ex.reuse_cache ex.input_hookfuncs ex.output_hookfuncs
    ex.ops.enum w ex.cluster_buffer w3 cb3 tr h

/-- Witness for C3: the demo run over one plain and one while operator,
with input hooks 1 and 2 and output hook 3, produces exactly the stated
trace. -/
theorem run_hook_order_witness :
    demoTrace = demoExecRun.ops.enum.flatMap (fun p =>
      (Event.setCalled p.1
          :: demoExecRun.input_hookfuncs.map (fun hk => Event.inputHook hk p.1)
          ++ (if p.2.type == "while" || p.2.type == "conditional_block"
              then [Event.setHooks p.1 demoExecRun.output_hookfuncs
                demoExecRun.input_hookfuncs]
              else [])
          ++ [Event.opRun p.1 p.2])
        ++ demoExecRun.output_hookfuncs.map (fun hk => Event.outputHook hk p.1)) :=
  run_hook_order noEffect demoExecRun demoTW demoRunW demoRunCb demoTrace rfl

theorem lookupA_cons_mk {α β : Type} [DecidableEq α] (a : α) (b : β)
    (l : List (α × β)) (x : α) :
    lookupA ((a, b) :: l) x = if a = x then some b else lookupA l x := rfl

theorem vecResize_length (v : List (Option Nat)) (n : Nat) :
    (vecResize v n).length = n := by
  unfold vecResize
  split
  · rw [List.length_append, List.length_replicate]
    omega
  · rw [List.length_take]
    omega

theorem emplaceEntry_mem {entries : List (Nat × Nat)} {e x : Nat × Nat}
    (h : x ∈ emplaceEntry entries e) : x ∈ entries ∨ x = e := by
  unfold emplaceEntry at h
  split at h
  · exact Or.inl h
  · rcases List.mem_append.mp h with h | h
    · exact Or.inl h
    · right
      cases h with
      | head => rfl
      | tail _ hx => cases hx

theorem lookupA_map_emplace (i : Nat) (e : Nat × Nat) :
    ∀ (cache : ReuseCache) (j : Nat) (entries : List (Nat × Nat)),
      lookupA (cache.map (fun p => if p.1 = i then (p.1, emplaceEntry p.2 e) else p)) j
        = some entries →
      ∃ ent0, lookupA cache j = some ent0
        ∧ (entries = ent0 ∨ (entries = emplaceEntry ent0 e ∧ j = i)) := by
  intro cache
  induction cache with
  | nil =>
    intro j entries h
    simp [lookupA] at h
  | cons p rest ih =>
    obtain ⟨a, b⟩ := p
    intro j entries h
    rw [List.map_cons] at h
    by_cases hai : a = i
    · rw [if_pos hai] at h
      rw [lookupA_cons_mk] at h
      by_cases haj : a = j
      · rw [if_pos haj] at h
        injection h with h
        refine ⟨b, ?_, Or.inr ⟨h.symm, by rw [← haj, hai]⟩⟩
        rw [lookupA_cons_mk, if_pos haj]
      · rw [if_neg haj] at h
        obtain ⟨ent0, hent, hca⟩ := ih j entries h
        refine ⟨ent0, ?_, hca⟩
        rw [lookupA_cons_mk, if_neg haj]
        exact hent
    · rw [if_neg hai] at h
      rw [lookupA_cons_mk] at h
      by_cases haj : a = j
      · rw [if_pos haj] at h
        injection h with h
        refine ⟨b, ?_, Or.inl h.symm⟩
        rw [lookupA_cons_mk, if_pos haj]
      · rw [if_neg haj] at h
        obtain ⟨ent0, hent, hca⟩ := ih j entries h
        refine ⟨ent0, ?_, hca⟩
        rw [lookupA_cons_mk, if_neg haj]
        exact hent

theorem cacheEmplace_lookup {cache : ReuseCache} {i : Nat} {e : Nat × Nat} {j : Nat}
    {entries : List (Nat × Nat)}
    (h : lookupA (cacheEmplace cache i e) j = some entries) :
    ∀ x ∈ entries, (∃ ent0, lookupA cache j = some ent0 ∧ x ∈ ent0)
      ∨ (x = e ∧ j = i) := by
  intro x hx
  unfold cacheEmplace at h
  split at h
  · obtain ⟨ent0, hent, hca⟩ := lookupA_map_emplace i e cache j entries h
    rcases hca with hca | hca
    · exact Or.inl ⟨ent0, hent, hca ▸ hx⟩
    · obtain ⟨hca, hji⟩ := hca
      rw [hca] at hx
      rcases emplaceEntry_mem hx with hx | hx
      · exact Or.inl ⟨ent0, hent, hx⟩
      · exact Or.inr ⟨hx, hji⟩
  · cases hcj : lookupA cache j with
    | some ent0 =>
      rw [lookupA_append_some hcj] at h
      injection h with h
      exact Or.inl ⟨ent0, rfl, h ▸ hx⟩
    | none =>
      rw [lookupA_append_none hcj] at h
      rw [lookupA_cons_mk] at h
      by_cases hij : i = j
      · rw [if_pos hij] at h
        injection h with h
        rw [← h] at hx
        cases hx with
        | head => exact Or.inr ⟨rfl, hij.symm⟩
        | tail _ hx2 => cases hx2
      · rw [if_neg hij] at h
        cases h

theorem recordedIn_emplace {cache : ReuseCache} {i : Nat} {e : Nat × Nat}
    {t c : Nat} (h : recordedIn (cacheEmplace cache i e) t c) :
    recordedIn cache t c ∨ (t, c) = e := by
  obtain ⟨j, entries, hj, hmem⟩ := h
  rcases cacheEmplace_lookup hj (t, c) hmem with ⟨ent0, hent, hmem0⟩ | ⟨heq, _⟩
  · exact Or.inl ⟨j, ent0, hent, hmem0⟩
  · exact Or.inr heq

theorem namesFold_mono :
    ∀ (table : List (String × String)) (acc : List String) (x : String), x ∈ acc →
      x ∈ table.foldl (fun acc p => if p.2 ∈ acc then acc else acc ++ [p.2]) acc := by
  intro table
  induction table with
  | nil => intro acc x hx; exact hx
  | cons q rest ih =>
    intro acc x hx
    rw [List.foldl_cons]
    refine ih _ x ?_
    split
    · exact hx
    · exact List.mem_append_left _ hx

theorem namesFold_mem :
    ∀ (table : List (String × String)) (acc : List String) (q : String × String),
      q ∈ table →
      q.2 ∈ table.foldl (fun acc p => if p.2 ∈ acc then acc else acc ++ [p.2]) acc := by
  intro table
  induction table with
  | nil => intro acc q hq; cases hq
  | cons q0 rest ih =>
    intro acc q hq
    rw [List.foldl_cons]
    rcases List.mem_cons.mp hq with hq | hq
    · subst hq
      refine namesFold_mono rest _ q.2 ?_
      split
      · assumption
      · exact List.mem_append_right _ (List.mem_singleton.mpr rfl)
    · exact ih _ q hq

theorem lookupA_table_mem_names {table : List (String × String)} {n rn : String}
    (h : lookupA table n = some rn) : rn ∈ clusterNames table :=
  namesFold_mem table [] (n, rn) (lookupA_mem h)

theorem planName_inv {fuel : Nat} {table : List (String × String)}
    {names : List String} {sid : Nat} {w : World} {opsE : List (Nat × OpDesc)}
    (hnames : ∀ n rn, lookupA table n = some rn → rn ∈ names)
    {i : Nat} {op : OpDesc} (hop : (i, op) ∈ opsE) {nm : String}
    (hnm : nm ∈ op.outputs) {st : ReuseCache × List (Option Nat)}
    (hinv : planInv fuel table names sid w opsE st) :
    planInv fuel table names sid w opsE (planName fuel table names sid w i st nm) := by
  obtain ⟨hlen, hseed, hprov⟩ := hinv
  cases hl : lookupA table nm with
  | none =>
    simp only [planName, hl]
    exact ⟨hlen, hseed, hprov⟩
  | some rn =>
    cases hv : scopeFindVar w fuel sid nm with
    | none =>
      simp only [planName, hl, hv]
      exact ⟨hlen, hseed, hprov⟩
    | some v =>
      cases hrv : scopeFindVar w fuel sid rn with
      | none =>
        simp only [planName, hl, hv, hrv]
        exact ⟨hlen, hseed, hprov⟩
      | some rv =>
        cases hvc : v.content with
        | uninit =>
          simp only [planName, hl, hv, hrv, hvc]
          exact ⟨hlen, hseed, hprov⟩
        | other k s0 =>
          simp only [planName, hl, hv, hrv, hvc]
          exact ⟨hlen, hseed, hprov⟩
        | dense t0 =>
          cases hrvc : rv.content with
          | uninit =>
            simp only [planName, hl, hv, hrv, hvc, hrvc]
            exact ⟨hlen, hseed, hprov⟩
          | other k s0 =>
            simp only [planName, hl, hv, hrv, hvc, hrvc]
            exact ⟨hlen, hseed, hprov⟩
          | dense rt0 =>
            simp only [planName, hl, hv, hrv, hvc, hrvc]
            have hrnmem : rn ∈ names := hnames nm rn hl
            have hidx : names.indexOf rn < names.length :=
              List.indexOf_lt_length.mpr hrnmem
            have hidx2 : names.indexOf rn < st.2.length := by
              rw [hlen]
              exact hidx
            refine ⟨by rw [List.length_set]; exact hlen, ?_, ?_⟩
            · intro t2 c2 hrec
              rcases recordedIn_emplace hrec with hrec | heq
              · by_cases hc : c2 = names.indexOf rn
                · rw [hc, getD_set_self _ hidx2]
                  rfl
                · rw [getD_set_ne _ (fun hx => hc hx.symm)]
                  exact hseed t2 c2 hrec
              · injection heq with h1 h2
                rw [h2, getD_set_self _ hidx2]
                rfl
            · intro j entries t2 c2 hj hmem
              rcases cacheEmplace_lookup hj (t2, c2) hmem with
                ⟨ent0, hent, hmem0⟩ | ⟨heq, hji⟩
              · exact hprov j ent0 t2 c2 hent hmem0
              · injection heq with h1 h2
                subst hji
                exact ⟨op, nm, rn, v, rv, rt0, hop, hnm, hl, hv,
                  by rw [h1]; exact hvc, hrv, hrvc, h2⟩

theorem foldOutputs_inv {fuel : Nat} {table : List (String × String)}
    {names : List String} {sid : Nat} {w : World} {opsE : List (Nat × OpDesc)}
    (hnames : ∀ n rn, lookupA table n = some rn → rn ∈ names)
    {i : Nat} {op : OpDesc} (hop : (i, op) ∈ opsE) :
    ∀ (outs : List String) (st : ReuseCache × List (Option Nat)),
      (∀ nm ∈ outs, nm ∈ op.outputs) →
      planInv fuel table names sid w opsE st →
      planInv fuel table names sid w opsE
        (outs.foldl (planName fuel table names sid w i) st) := by
  intro outs
  induction outs with
  | nil => intro st _ h; exact h
  | cons nm rest ih =>
    intro st hsub hinv
    rw [List.foldl_cons]
    exact ih _ (fun n hn => hsub n (List.mem_cons_of_mem _ hn))
      (planName_inv hnames hop (hsub nm (List.mem_cons_self _ _)) hinv)

theorem planLoop_inv {fuel : Nat} {table : List (String × String)}
    {names : List String} {sid : Nat} {w : World} {opsE : List (Nat × OpDesc)}
    (hnames : ∀ n rn, lookupA table n = some rn → rn ∈ names) :
    ∀ (l : List (Nat × OpDesc)) (st : ReuseCache × List (Option Nat)),
      (∀ q ∈ l, q ∈ opsE) →
      planInv fuel table names sid w opsE st →
      planInv fuel table names sid w opsE (planLoop fuel table names sid w l st) := by
  intro l
  induction l with
  | nil => intro st _ h; exact h
  | cons p rest ih =>
    obtain ⟨i, op⟩ := p
    intro st hsub hinv
    simp only [planLoop]
    refine ih _ (fun q hq => hsub q (List.mem_cons_of_mem _ hq)) ?_
    exact foldOutputs_inv hnames (hsub (i, op) (List.mem_cons_self _ _))
      op.outputs st (fun nm h => h) hinv

theorem updateEntries_total {cache : ReuseCache} :
    ∀ (entries : List (Nat × Nat)) (w : World) (cb : List (Option Nat)),
      slotsSeeded cache cb → (∀ e ∈ entries, recordedIn cache e.1 e.2) →
      ∃ w2 cb2, updateEntries cache entries w cb = some (w2, cb2)
        ∧ slotsSeeded cache cb2 := by
  intro entries
  induction entries with
  | nil => intro w cb hseed _; exact ⟨w, cb, rfl, hseed⟩
  | cons e rest ih =>
    obtain ⟨t, c⟩ := e
    intro w cb hseed hrec
    have hslot : (cb.getD c none).isSome :=
      hseed t c (hrec (t, c) (List.mem_cons_self _ _))
    obtain ⟨b, hb⟩ := Option.isSome_iff_exists.mp hslot
    by_cases hgt : memSize w t > memSize w b
    · have h1 : updateOneEntry cache w cb (t, c)
          = some (reAliasCluster cache c t w, cb.set c (some t)) :=
        updateOneEntry_replace hb hgt
      have hseed2 : slotsSeeded cache (cb.set c (some t)) := by
        intro t2 c2 hr2
        by_cases hc : c2 = c
        · rw [hc, getD_set_self _ (getD_some_lt hb)]
          rfl
        · rw [getD_set_ne _ (fun hx => hc hx.symm)]
          exact hseed t2 c2 hr2
      obtain ⟨w2, cb2, hrest, hseed3⟩ := ih (reAliasCluster cache c t w)
        (cb.set c (some t)) hseed2 (fun e he => hrec e (List.mem_cons_of_mem _ he))
      refine ⟨w2, cb2, ?_, hseed3⟩
      simp only [updateEntries, h1]
      exact hrest
    · have h1 : updateOneEntry cache w cb (t, c) = some (w, cb) :=
        updateOneEntry_keep hb (not_lt.mp hgt)
      obtain ⟨w2, cb2, hrest, hseed3⟩ := ih w cb hseed
        (fun e he => hrec e (List.mem_cons_of_mem _ he))
      refine ⟨w2, cb2, ?_, hseed3⟩
      simp only [updateEntries, h1]
      exact hrest

theorem runLoop_total (opE : Nat → OpDesc → World → World) (cache : ReuseCache)
    (hin hout : List Nat) :
    ∀ (l : List (Nat × OpDesc)) (w : World) (cb : List (Option Nat)),
      slotsSeeded cache cb →
      ∃ r, runLoop opE cache hin hout l w cb = some r := by
  intro l
  induction l with
  | nil => intro w cb _; exact ⟨(w, cb, []), rfl⟩
  | cons p rest ih =>
    obtain ⟨i, op⟩ := p
    intro w cb hseed
    cases hl : lookupA cache i with
    | none =>
      have hupd : updateReuseForOp cache i (opE i op w) cb
          = some (opE i op w, cb) := by
        simp only [updateReuseForOp, hl]
      obtain ⟨r, hr⟩ := ih (opE i op w) cb hseed
      obtain ⟨w3, cb3, tr⟩ := r
      refine ⟨(w3, cb3, preEvents hin hout i op
        ++ hout.map (fun hk => Event.outputHook hk i) ++ tr), ?_⟩
      simp only [runLoop, hupd, hr]
    | some entries =>
      have hrecs : ∀ e ∈ entries, recordedIn cache e.1 e.2 := by
        intro e he
        obtain ⟨a, b⟩ := e
        exact ⟨i, entries, hl, he⟩
      obtain ⟨w2, cb2, hupd0, hseed2⟩ :=
        updateEntries_total entries (opE i op w) cb hseed hrecs
      have hupd : updateReuseForOp cache i (opE i op w) cb = some (w2, cb2) := by
        simp only [updateReuseForOp, hl]
        exact hupd0
      obtain ⟨r, hr⟩ := ih w2 cb2 hseed2
      obtain ⟨w3, cb3, tr⟩ := r
      refine ⟨(w3, cb3, preEvents hin hout i op
        ++ hout.map (fun hk => Event.outputHook hk i) ++ tr), ?_⟩
      simp only [runLoop, hupd, hr]

theorem makeReusePlan_eq {ex : NaiveExec} {sid : Nat} (h : ex.scope = some sid)
    (fuel : Nat) (table : List (String × String)) (w : World) :
    MakeReusePlan fuel table ex w = some { ex with
      reuse_cache := (planLoop fuel table (clusterNames table) sid w ex.ops.enum
        (ex.reuse_cache, vecResize ex.cluster_buffer (clusterNames table).length)).1,
      cluster_buffer := (planLoop fuel table (clusterNames table) sid w ex.ops.enum
        (ex.reuse_cache, vecResize ex.cluster_buffer (clusterNames table).length)).2 } := by
  simp only [MakeReusePlan, h]

theorem planInv_initial {fuel : Nat} {table : List (String × String)} {sid : Nat}
    {w : World} {opsE : List (Nat × OpDesc)} (cb : List (Option Nat)) :
    planInv fuel table (clusterNames table) sid w opsE
      ([], vecResize cb (clusterNames table).length) := by
  refine ⟨vecResize_length _ _, ?_, ?_⟩
  · intro t c hrec
    obtain ⟨j, entries, hj, _⟩ := hrec
    simp [lookupA] at hj
  · intro j entries t c hj
    simp [lookupA] at hj

/-- C10: every pair recorded by a fresh MakeReusePlan has a cluster id
that indexes a seeded (non-null) cluster buffer slot, and consequently the
buffer-update step of Run never dereferences an unset slot: Run on the
planned executor never fails. -/
theorem makeReusePlan_run_safe (fuel : Nat) (table : List (String × String))
    (ex ex2 : NaiveExec) (w : World) (sid : Nat)
    (hsc : ex.scope = some sid) (hcache : ex.reuse_cache = [])
    (h : MakeReusePlan fuel table ex w = some ex2) :
    (∀ t c, recordedIn ex2.reuse_cache t c →
        c < ex2.cluster_buffer.length ∧ (ex2.cluster_buffer.getD c none).isSome)
    ∧ ∀ opE w0, NaiveExec.run opE ex2 w0 ≠ none := by
  rw [makeReusePlan_eq hsc fuel table w] at h
  injection h with h
  subst h
  have hinv0 : planInv fuel table (clusterNames table) sid w ex.ops.enum
      (ex.reuse_cache, vecResize ex.cluster_buffer (clusterNames table).length) := by
    rw [hcache]
    exact planInv_initial ex.cluster_buffer
  have hinv := planLoop_inv (fun n rn hx => lookupA_table_mem_names hx)
    ex.ops.enum _ (fun q hq => hq) hinv0
  obtain ⟨hlen, hseed, hprov⟩ := hinv
  constructor
  · intro t c hrec
    have hs := hseed t c hrec
    obtain ⟨b, hb⟩ := Option.isSome_iff_exists.mp hs
    exact ⟨getD_some_lt hb, hs⟩
  · intro opE w0 hnone
    obtain ⟨r, hr⟩ := runLoop_total opE
      (planLoop fuel table (clusterNames table) sid w ex.ops.enum
        (ex.reuse_cache, vecResize ex.cluster_buffer (clusterNames table).length)).1
      ex.input_hookfuncs ex.output_hookfuncs ex.ops.enum w0
      (planLoop fuel table (clusterNames table) sid w ex.ops.enum
        (ex.reuse_cache, vecResize ex.cluster_buffer (clusterNames table).length)).2
      hseed
    rw [NaiveExec.run] at hnone
    rw [hr] at hnone
    cases hnone

/-- Witness for C10: the demo plan records tensor 1 in cluster 0, slot 0
is in range and seeded, and a run over the planned executor completes. -/
theorem makeReusePlan_run_safe_witness :
    (0 < demoPlanned.cluster_buffer.length
      ∧ (demoPlanned.cluster_buffer.getD 0 none).isSome)
    ∧ NaiveExec.run noEffect demoPlanned demoPlanW ≠ none := by
  have h := makeReusePlan_run_safe 1 demoTable demoPlanExec demoPlanned demoPlanW 0
    rfl rfl rfl
  exact ⟨h.1 1 0 ⟨0, [(1, 0)], rfl, List.mem_singleton.mpr rfl⟩,
    h.2 noEffect demoPlanW⟩

/-- C6: MakeReusePlan completes normally whenever a scope is attached, and
every pair it records arises from a fully valid candidate (a reuse-table
key whose variable and reuse-target variable both exist in the scope and
hold dense tensors); candidates missing any of these conditions are
silently excluded and contribute no entry. -/
theorem makeReusePlan_silent_skip (fuel : Nat) (table : List (String × String))
    (ex : NaiveExec) (w : World) (sid : Nat)
    (hsc : ex.scope = some sid) (hcache : ex.reuse_cache = []) :
    (MakeReusePlan fuel table ex w).isSome = true
    ∧ ∀ ex2, MakeReusePlan fuel table ex w = some ex2 →
        ∀ j entries t c, lookupA ex2.reuse_cache j = some entries →
          (t, c) ∈ entries →
          entryValidB fuel table (clusterNames table) sid w ex.ops.enum j t c
            = true := by
  constructor
  · rw [makeReusePlan_eq hsc fuel table w]
    rfl
  · intro ex2 h j entries t c hj hmem
    rw [makeReusePlan_eq hsc fuel table w] at h
    injection h with h
    subst h
    have hinv0 : planInv fuel table (clusterNames table) sid w ex.ops.enum
        (ex.reuse_cache, vecResize ex.cluster_buffer (clusterNames table).length) := by
      rw [hcache]
      exact planInv_initial ex.cluster_buffer
    have hinv := planLoop_inv (fun n rn hx => lookupA_table_mem_names hx)
      ex.ops.enum _ (fun q hq => hq) hinv0
    obtain ⟨hlen, hseed, hprov⟩ := hinv
    obtain ⟨op, nm, rn, v, rv, rt, hop, hnm, hl, hv, hvc, hrv, hrvc, hc⟩ :=
      hprov j entries t c hj hmem
    rw [entryValidB, List.any_eq_true]
    refine ⟨(j, op), hop, ?_⟩
    rw [show ((j, op).1 == j) = true from by simp]
    rw [Bool.true_and, List.any_eq_true]
    refine ⟨nm, hnm, ?_⟩
    simp only [hl, hv, hrv, hvc, hrvc, hc]
    simp

/-- Witness for C6: the demo plan over table x to buf0 and y to buf0
completes although y does not exist in the scope, and its only recorded
entry is the fully valid candidate x. -/
theorem makeReusePlan_silent_skip_witness :
    (MakeReusePlan 1 demoTable demoPlanExec demoPlanW).isSome = true
    ∧ entryValidB 1 demoTable (clusterNames demoTable) 0 demoPlanW
        demoPlanExec.ops.enum 0 1 0 = true := by
  have h := makeReusePlan_silent_skip 1 demoTable demoPlanExec demoPlanW 0 rfl rfl
  exact ⟨h.1, h.2 demoPlanned rfl 0 [(1, 0)] 1 0 rfl (List.mem_singleton.mpr rfl)⟩

end PaddleExec
